import Mathlib

/-!
Shallow embedding of the crossword CSP solver in
`src/Projects3/crossword/temp.py` (class `CrosswordCreator`), together with
proofs about it.

Modelling conventions:

* Python `set` objects holding words are modelled as `List Word`
  (`difference_update` becomes `List.filter`); `dict` objects are modelled as
  association lists.
* `self.domains` (a dict with one entry per crossword variable) is modelled as
  a total function `Variable → List Word`; methods that iterate over the dict
  restrict themselves to `p.vars`.
* String indexing `w[i]` is modelled as `List.get? w i`; the solver never
  indexes out of range for well-formed puzzles, so both sides of each
  character comparison are `some` in the reachable cases.
* The `Crossword` class (file `crossword.py`) is not part of the sources;
  its interface (`variables`, `words`, `overlaps`, `neighbors`) is modelled
  from the spec, see `Puzzle`.
-/

namespace CrosswordCSP

/-- Direction of a crossword slot (`Variable.ACROSS` / `Variable.DOWN`). -/
inductive Direction where
  | across
  | down
deriving DecidableEq, Repr

/-- A crossword slot: start cell, direction and required word length
(spec §3: "identifies a slot — start row, start column, direction and
length"). -/
structure Variable where
  i : Nat
  j : Nat
  direction : Direction
  length : Nat
deriving DecidableEq, Repr

/-- A word is a sequence of letters. -/
abbrev Word := List Char

/-- The domain store: per-variable list of still-possible words
(models the dict `self.domains`). -/
abbrev Domains := Variable → List Word

/-- A partial assignment: association list from variables to words
(models the Python dict `assignment`). -/
abbrev Assign := List (Variable × Word)

/-- Modelled from the spec: the Puzzle Description interface provided by the
absent `crossword.py` (`Crossword` class) — the ordered set of variables, the
full vocabulary, and the overlap lookup
`Overlap(x, y) → Option (position_in_x, position_in_y)` (spec §6). -/
structure Puzzle where
  vars : List Variable
  words : List Word
  overlaps : Variable → Variable → Option (Nat × Nat)

/-- Modelled from the spec: `Neighbors(x)` is the set of variables `y ≠ x`
such that an `Overlap(x, y)` exists (spec §3). -/
def Puzzle.neighbors (p : Puzzle) (x : Variable) : List Variable :=
  p.vars.filter (fun v => decide (v ≠ x) && (p.overlaps v x).isSome)

/-- The overlap entries for `(x, y)` and `(y, x)` mirror each other. -/
def symmCheck (p : Puzzle) (x y : Variable) : Bool :=
  match p.overlaps x y with
  | some ov => decide (p.overlaps y x = some (ov.2, ov.1))
  | none => (p.overlaps y x).isNone

/-- Well-formedness of the overlap table (spec §3: the overlap is attached to
an *unordered* pair of variables, with the two positions swapping with the
order of the arguments). -/
def Puzzle.WF (p : Puzzle) : Prop :=
  ∀ x ∈ p.vars, ∀ y ∈ p.vars, symmCheck p x y = true

instance (p : Puzzle) : Decidable p.WF :=
  inferInstanceAs (Decidable (∀ x ∈ p.vars, ∀ y ∈ p.vars, _ = true))

lemma WF.overlaps_symm {p : Puzzle} (h : p.WF) {x y : Variable}
    (hx : x ∈ p.vars) (hy : y ∈ p.vars) {ov : Nat × Nat}
    (hov : p.overlaps x y = some ov) :
    p.overlaps y x = some (ov.2, ov.1) := by
  have := h x hx y hy
  unfold symmCheck at this
  rw [hov] at this
  exact of_decide_eq_true this

lemma WF.overlaps_symm_none {p : Puzzle} (h : p.WF) {x y : Variable}
    (hx : x ∈ p.vars) (hy : y ∈ p.vars)
    (hov : p.overlaps x y = none) : p.overlaps y x = none := by
  have := h x hx y hy
  unfold symmCheck at this
  rw [hov] at this
  exact Option.isNone_iff_eq_none.mp this

/-- Dict lookup (`assignment[v]` / `v in assignment`). -/
def lookup : Assign → Variable → Option Word
  | [], _ => none
  | (v, w) :: rest, u => if u = v then some w else lookup rest u

/-- Dict update `assignment[v] = w`: replace an existing binding, otherwise
append a fresh one. -/
def insertA (a : Assign) (v : Variable) (w : Word) : Assign :=
  if (lookup a v).isSome then
    a.map (fun kv => if kv.1 = v then (v, w) else kv)
  else
    a ++ [(v, w)]

/-- The keys of an association list are pairwise distinct (always true of the
Python dicts being modelled). -/
def KeysNodup (a : Assign) : Prop := (a.map Prod.fst).Nodup

/-- `CrosswordCreator.__init__`: `self.domains` maps every variable to a copy
of the full vocabulary. -/
def initDomains (p : Puzzle) : Domains := fun _ => p.words

/-- `CrosswordCreator.enforce_node_consistency`: for each variable of the
puzzle, remove from its domain the words whose length differs from the
variable's length. -/
def enforceNodeConsistency (p : Puzzle) (doms : Domains) : Domains :=
  fun v =>
    if v ∈ p.vars then
      (doms v).filter (fun w => decide (v.length = w.length))
    else
      doms v

/-- Does `xw` (a word for `x`) have a supporting word among `ydom` under
overlap `ov = (pos_in_x, pos_in_y)`?  (The `any` inside
`CrosswordCreator.revise`.) -/
def hasSupport (ov : Nat × Nat) (ydom : List Word) (xw : Word) : Bool :=
  ydom.any fun yw => decide (xw.get? ov.1 = yw.get? ov.2)

/-- `CrosswordCreator.revise(x, y)`: returns the updated domain store and the
`revised` flag.  If the pair has no overlap, nothing happens; otherwise every
word of `Domain[x]` without a supporting word in `Domain[y]` is removed, and
the flag reports whether any word was removed. -/
def reviseDoms (p : Puzzle) (doms : Domains) (x y : Variable) :
    Domains × Bool :=
  match p.overlaps x y with
  | none => (doms, false)
  | some ov =>
    let keep := (doms x).filter (fun w => hasSupport ov (doms y) w)
    (fun v => if v = x then keep else doms v,
     !((doms x).filter (fun w => !hasSupport ov (doms y) w)).isEmpty)

lemma reviseDoms_fst_eq_of_ne (p : Puzzle) (doms : Domains) (x y v : Variable)
    (h : v ≠ x) : (reviseDoms p doms x y).1 v = doms v := by
  unfold reviseDoms
  cases p.overlaps x y with
  | none => rfl
  | some ov => simp [h]

lemma reviseDoms_fst_subset (p : Puzzle) (doms : Domains) (x y v : Variable) :
    (reviseDoms p doms x y).1 v ⊆ doms v := by
  unfold reviseDoms
  cases p.overlaps x y with
  | none => exact fun _ h => h
  | some ov =>
    by_cases hv : v = x
    · subst hv; simp only [if_pos trivial]
      exact fun a ha => List.mem_of_mem_filter ha
    · simp [hv]

lemma reviseDoms_length_le (p : Puzzle) (doms : Domains) (x y v : Variable) :
    ((reviseDoms p doms x y).1 v).length ≤ (doms v).length := by
  unfold reviseDoms
  cases p.overlaps x y with
  | none => exact le_rfl
  | some ov =>
    by_cases hv : v = x
    · subst hv; simpa using List.length_filter_le _ _
    · simp [hv]

lemma reviseDoms_true_length_lt (p : Puzzle) (doms : Domains) (x y : Variable)
    (h : (reviseDoms p doms x y).2 = true) :
    ((reviseDoms p doms x y).1 x).length < (doms x).length := by
  cases hov : p.overlaps x y with
  | none => simp [reviseDoms, hov] at h
  | some ov =>
    simp only [reviseDoms, hov, Bool.not_eq_true',
      List.isEmpty_eq_false_iff_exists_mem, List.mem_filter] at h ⊢
    rw [if_pos trivial, List.length_filter_lt_length_iff_exists]
    obtain ⟨w, hw, hns⟩ := h
    exact ⟨w, hw, by simp [hns]⟩

lemma reviseDoms_false_fst (p : Puzzle) (doms : Domains) (x y : Variable)
    (h : (reviseDoms p doms x y).2 = false) (v : Variable) :
    (reviseDoms p doms x y).1 v = doms v := by
  cases hov : p.overlaps x y with
  | none => simp [reviseDoms, hov]
  | some ov =>
    simp only [reviseDoms, hov, Bool.not_eq_false', List.isEmpty_iff] at h ⊢
    by_cases hv : v = x
    · rw [if_pos hv, hv]
      have hall : ∀ w ∈ doms x, hasSupport ov (doms y) w = true := by
        intro w hw
        by_contra hbad
        have hmem : w ∈ (doms x).filter (fun w => !hasSupport ov (doms y) w) := by
          simp [List.mem_filter, hw, hbad]
        rw [h] at hmem
        exact absurd hmem (List.not_mem_nil w)
      exact List.filter_eq_self.mpr hall
    · rw [if_neg hv]

/-! ### AC-3 -/

/-- The arcs `(z, x)` re-enqueued after a successful revision of `x` against
`y` (`for z in self.crossword.neighbors(x) - {y}: queue.append((z, x))`). -/
def enqueueArcs (p : Puzzle) (x y : Variable) : List (Variable × Variable) :=
  ((p.neighbors x).filter (fun z => decide (z ≠ y))).map (fun z => (z, x))

/-- The initial worklist of `ac3` when called without arcs: all ordered pairs
`(x, y)` with `y` a neighbor of `x`. -/
def initialArcs (p : Puzzle) : List (Variable × Variable) :=
  p.vars.flatMap (fun x => (p.neighbors x).map (fun y => (x, y)))

/-- Total size of the domain store over the puzzle's variables (termination
measure for the AC-3 worklist loop). -/
def sumDoms (p : Puzzle) (doms : Domains) : Nat :=
  (p.vars.map (fun v => (doms v).length)).sum

/-- Number of queued arcs whose source is not a puzzle variable (auxiliary
termination measure: such arcs are never re-enqueued). -/
def badCount (p : Puzzle) (q : List (Variable × Variable)) : Nat :=
  (q.filter (fun arc => decide (arc.1 ∉ p.vars))).length

lemma sum_map_le_sum_map (l : List Variable) (f g : Variable → Nat)
    (h : ∀ v ∈ l, f v ≤ g v) : (l.map f).sum ≤ (l.map g).sum := by
  induction l with
  | nil => simp
  | cons a t ih =>
    simp only [List.map_cons, List.sum_cons]
    exact Nat.add_le_add (h a (List.mem_cons_self a t))
      (ih fun v hv => h v (List.mem_cons_of_mem a hv))

lemma sum_map_lt_sum_map (l : List Variable) (f g : Variable → Nat)
    (h : ∀ v ∈ l, f v ≤ g v) (x : Variable) (hx : x ∈ l) (hlt : f x < g x) :
    (l.map f).sum < (l.map g).sum := by
  induction l with
  | nil => cases hx
  | cons a t ih =>
    simp only [List.map_cons, List.sum_cons]
    rcases List.mem_cons.mp hx with rfl | hxt
    · exact Nat.add_lt_add_of_lt_of_le hlt
        (sum_map_le_sum_map t f g fun v hv => h v (List.mem_cons_of_mem x hv))
    · exact Nat.add_lt_add_of_le_of_lt (h a (List.mem_cons_self a t))
        (ih (fun v hv => h v (List.mem_cons_of_mem a hv)) hxt)

lemma sumDoms_lt (p : Puzzle) (d1 d2 : Domains)
    (hle : ∀ v, (d1 v).length ≤ (d2 v).length) (x : Variable)
    (hx : x ∈ p.vars) (hlt : (d1 x).length < (d2 x).length) :
    sumDoms p d1 < sumDoms p d2 :=
  sum_map_lt_sum_map p.vars _ _ (fun v _ => hle v) x hx hlt

lemma sumDoms_congr (p : Puzzle) (d1 d2 : Domains)
    (h : ∀ v ∈ p.vars, d1 v = d2 v) : sumDoms p d1 = sumDoms p d2 := by
  unfold sumDoms
  exact congrArg List.sum (List.map_congr_left fun v hv => by rw [h v hv])

lemma badCount_cons_bad (p : Puzzle) (x y : Variable)
    (q : List (Variable × Variable)) (hx : x ∉ p.vars) :
    badCount p ((x, y) :: q) = badCount p q + 1 := by
  simp [badCount, List.filter_cons, hx]

lemma badCount_cons_good (p : Puzzle) (x y : Variable)
    (q : List (Variable × Variable)) (hx : x ∈ p.vars) :
    badCount p ((x, y) :: q) = badCount p q := by
  simp [badCount, List.filter_cons, hx]

lemma badCount_append (p : Puzzle) (q r : List (Variable × Variable)) :
    badCount p (q ++ r) = badCount p q + badCount p r := by
  simp [badCount, List.filter_append]

lemma mem_neighbors (p : Puzzle) (x z : Variable) :
    z ∈ p.neighbors x ↔ z ∈ p.vars ∧ z ≠ x ∧ (p.overlaps z x).isSome := by
  simp [Puzzle.neighbors, List.mem_filter]

lemma badCount_enqueueArcs (p : Puzzle) (x y : Variable) :
    badCount p (enqueueArcs p x y) = 0 := by
  unfold badCount
  rw [List.length_eq_zero]
  rw [List.filter_eq_nil_iff]
  intro arc harc
  simp only [enqueueArcs, List.mem_map, List.mem_filter] at harc
  obtain ⟨z, ⟨hz, _⟩, rfl⟩ := harc
  have hzv : z ∈ p.vars := ((mem_neighbors p x z).mp hz).1
  simp [hzv]

/-- One worklist loop of `CrosswordCreator.ac3`: pop the arc `(x, y)`, call
`revise(x, y)`; on a revision, fail if `Domain[x]` emptied, otherwise
re-enqueue the arcs into `x`; terminate with success when the queue empties.
Returns the flag together with the final domain store (the code mutates
`self.domains` in place). -/
def ac3go (p : Puzzle) (doms : Domains) (queue : List (Variable × Variable)) :
    Bool × Domains :=
  match queue with
  | [] => (true, doms)
  | (x, y) :: rest =>
    if hrev : (reviseDoms p doms x y).2 = true then
      if ((reviseDoms p doms x y).1 x).isEmpty then
        (false, (reviseDoms p doms x y).1)
      else
        ac3go p (reviseDoms p doms x y).1 (rest ++ enqueueArcs p x y)
    else
      ac3go p doms rest
termination_by (sumDoms p doms, badCount p queue, queue.length)
decreasing_by
  · by_cases hx : x ∈ p.vars
    · exact Prod.Lex.left _ _ (sumDoms_lt p _ doms
        (fun v => reviseDoms_length_le p doms x y v) x hx
        (reviseDoms_true_length_lt p doms x y hrev))
    · have h1 : sumDoms p (reviseDoms p doms x y).1 = sumDoms p doms :=
        sumDoms_congr p _ doms fun v hv =>
          reviseDoms_fst_eq_of_ne p doms x y v (fun hvx => hx (hvx ▸ hv))
      rw [h1]
      apply Prod.Lex.right
      apply Prod.Lex.left
      rw [badCount_append, badCount_enqueueArcs, badCount_cons_bad p x y rest hx]
      omega
  · by_cases hx : x ∈ p.vars
    · rw [badCount_cons_good p x y rest hx]
      exact Prod.Lex.right _ (Prod.Lex.right _ (by simp))
    · apply Prod.Lex.right
      apply Prod.Lex.left
      rw [badCount_cons_bad p x y rest hx]
      omega

/-- `CrosswordCreator.ac3()` as called by `solve`: run the worklist loop on
the initial arc list (the `arcs=None` case of the Python method). -/
def ac3 (p : Puzzle) (doms : Domains) : Bool × Domains :=
  ac3go p doms (initialArcs p)

/-! ### The consistency checker and the search heuristics -/

/-- `CrosswordCreator.assignment_complete`:
`set(assignment.keys()) == set(self.crossword.variables)`. -/
def assignmentComplete (p : Puzzle) (a : Assign) : Bool :=
  p.vars.all (fun v => (lookup a v).isSome) &&
    a.all (fun kv => decide (kv.1 ∈ p.vars))

/-- The first loop of `CrosswordCreator.consistent`: for each item `(v, w)`,
reject on a length mismatch or if the word was already seen (`values`), else
record the word and continue. -/
def distinctLenCheck : Assign → List Word → Bool
  | [], _ => true
  | (v, w) :: rest, seen =>
    if decide (v.length ≠ w.length) || decide (w ∈ seen) then false
    else distinctLenCheck rest (w :: seen)

/-- The second loop of `CrosswordCreator.consistent`: every pair of assigned
neighboring variables must agree at their overlap positions. -/
def overlapsCheck (p : Puzzle) (a : Assign) : Bool :=
  a.all fun kv =>
    (p.neighbors kv.1).all fun v2 =>
      match lookup a v2 with
      | none => true
      | some w2 =>
        match p.overlaps kv.1 v2 with
        | none => true
        | some ov => decide (kv.2.get? ov.1 = w2.get? ov.2)

/-- `CrosswordCreator.consistent`. -/
def consistentB (p : Puzzle) (a : Assign) : Bool :=
  distinctLenCheck a [] && overlapsCheck p a

/-- The count `constraint[value]` computed by
`CrosswordCreator.order_domain_values`: across the unassigned neighbors of
`var`, the number of neighbor-domain words that disagree with `w` at the
overlap positions. -/
def ruleOut (p : Puzzle) (doms : Domains) (a : Assign) (var : Variable)
    (w : Word) : Nat :=
  ((p.neighbors var).filter (fun n => (lookup a n).isNone)).foldl
    (fun acc n =>
      match p.overlaps var n with
      | none => acc
      | some ov =>
        acc +
          ((doms n).filter
            (fun nw => decide (w.get? ov.1 ≠ nw.get? ov.2))).length)
    0

/-- Stable insertion of `w` into a list sorted ascending by `key`. -/
def insertSorted (key : Word → Nat) (w : Word) : List Word → List Word
  | [] => [w]
  | v :: rest =>
    if key w ≤ key v then w :: v :: rest else v :: insertSorted key w rest

/-- Stable ascending sort by `key` (the semantics of Python's `sorted`,
which is a stable sort; any stable sort computes the same list). -/
def insertionSort (key : Word → Nat) : List Word → List Word
  | [] => []
  | w :: rest => insertSorted key w (insertionSort key rest)

/-- `CrosswordCreator.order_domain_values`: the domain of `var` sorted
ascending by the least-constraining-value count. -/
def orderDomainValues (p : Puzzle) (doms : Domains) (a : Assign)
    (var : Variable) : List Word :=
  insertionSort (ruleOut p doms a var) (doms var)

/-- The list comprehension
`[var for var in self.crossword.variables if var not in assignment]`. -/
def unassignedVars (p : Puzzle) (a : Assign) : List Variable :=
  p.vars.filter (fun v => (lookup a v).isNone)

/-- Number of still-unassigned variables (termination measure of the
search). -/
def unassignedCount (p : Puzzle) (a : Assign) : Nat :=
  (unassignedVars p a).length

/-- The sort key of `select_unassigned_variable`:
`(len(self.domains[var]), -len(self.crossword.neighbors(var)))`.  The second
component is negated in the comparison `selectKeyLt` instead. -/
def selectKey (p : Puzzle) (doms : Domains) (v : Variable) : Nat × Nat :=
  ((doms v).length, (p.neighbors v).length)

/-- Strict comparison of select keys: fewer remaining values first, ties
broken by higher degree. -/
def selectKeyLt (k1 k2 : Nat × Nat) : Bool :=
  decide (k1.1 < k2.1) || (decide (k1.1 = k2.1) && decide (k2.2 < k1.2))

/-- Python's `min(..., key=...)`: the first element with minimal key, `none`
on an empty list (where Python raises `ValueError`). -/
def minBySelectKey (p : Puzzle) (doms : Domains) :
    List Variable → Option Variable
  | [] => none
  | v :: rest =>
    some (rest.foldl
      (fun best w =>
        if selectKeyLt (selectKey p doms w) (selectKey p doms best) then w
        else best)
      v)

/-- `CrosswordCreator.select_unassigned_variable`. -/
def selectUnassignedVariable (p : Puzzle) (doms : Domains) (a : Assign) :
    Option Variable :=
  minBySelectKey p doms (unassignedVars p a)

/-! ### Helper lemmas for the search's termination -/

lemma lookup_append (a b : Assign) (u : Variable) :
    lookup (a ++ b) u = (lookup a u).orElse (fun _ => lookup b u) := by
  induction a with
  | nil => rfl
  | cons kv rest ih =>
    obtain ⟨v, w⟩ := kv
    by_cases h : u = v
    · simp [lookup, h]
    · simp [lookup, h, ih]

lemma insertA_of_lookup_none (a : Assign) (v : Variable) (w : Word)
    (h : lookup a v = none) : insertA a v w = a ++ [(v, w)] := by
  unfold insertA
  rw [h]
  rfl

lemma lookup_insertA_fresh_self (a : Assign) (v : Variable) (w : Word)
    (h : lookup a v = none) : lookup (insertA a v w) v = some w := by
  rw [insertA_of_lookup_none a v w h, lookup_append, h]
  simp [lookup]

lemma lookup_insertA_fresh_ne (a : Assign) (v u : Variable) (w : Word)
    (h : lookup a v = none) (hne : u ≠ v) :
    lookup (insertA a v w) u = lookup a u := by
  rw [insertA_of_lookup_none a v w h, lookup_append]
  cases hu : lookup a u with
  | some z => rfl
  | none => simp [lookup, hne]

lemma length_filter_le_of_imp (l : List Variable) (pr q : Variable → Bool)
    (himp : ∀ x ∈ l, q x = true → pr x = true) :
    (l.filter q).length ≤ (l.filter pr).length := by
  induction l with
  | nil => simp
  | cons a t ih =>
    have iht := ih fun x hx => himp x (List.mem_cons_of_mem a hx)
    rw [List.filter_cons, List.filter_cons]
    cases hq : q a with
    | true =>
      rw [himp a (List.mem_cons_self a t) hq]
      simp <;> omega
    | false =>
      rw [if_neg Bool.false_ne_true]
      cases hp : pr a with
      | true =>
        rw [if_pos rfl]
        simp <;> omega
      | false =>
        rw [if_neg Bool.false_ne_true]
        exact iht

lemma length_filter_lt_of_imp (l : List Variable) (pr q : Variable → Bool)
    (himp : ∀ x ∈ l, q x = true → pr x = true) (x : Variable) (hx : x ∈ l)
    (hpx : pr x = true) (hqx : q x = false) :
    (l.filter q).length < (l.filter pr).length := by
  induction l with
  | nil => cases hx
  | cons a t ih =>
    have hle := length_filter_le_of_imp t pr q
      fun z hz => himp z (List.mem_cons_of_mem a hz)
    rw [List.filter_cons, List.filter_cons]
    rcases List.mem_cons.mp hx with rfl | hxt
    · rw [hqx, hpx, if_neg Bool.false_ne_true, if_pos rfl]
      simp <;> omega
    · have iht := ih (fun z hz => himp z (List.mem_cons_of_mem a hz)) hxt
      cases hq : q a with
      | true =>
        rw [himp a (List.mem_cons_self a t) hq]
        simp <;> omega
      | false =>
        rw [if_neg Bool.false_ne_true]
        cases hp : pr a with
        | true =>
          rw [if_pos rfl]
          simp <;> omega
        | false =>
          rw [if_neg Bool.false_ne_true]
          exact iht

lemma unassignedCount_insertA_lt (p : Puzzle) (a : Assign) (var : Variable)
    (w : Word) (hv : var ∈ p.vars) (hnone : lookup a var = none) :
    unassignedCount p (insertA a var w) < unassignedCount p a := by
  unfold unassignedCount unassignedVars
  apply length_filter_lt_of_imp p.vars _ _ _ var hv
  · rw [hnone]; rfl
  · rw [lookup_insertA_fresh_self a var w hnone]; rfl
  · intro z hz hq
    by_cases hzv : z = var
    · subst hzv
      rw [lookup_insertA_fresh_self a z w hnone] at hq
      cases hq
    · rw [lookup_insertA_fresh_ne a var z w hnone hzv] at hq
      exact hq

lemma foldl_selectMin_mem (p : Puzzle) (doms : Domains) :
    ∀ (l : List Variable) (v : Variable),
      (l.foldl
        (fun best w =>
          if selectKeyLt (selectKey p doms w) (selectKey p doms best) then w
          else best)
        v) ∈ v :: l := by
  intro l
  induction l with
  | nil => intro v; simp [List.foldl]
  | cons a t ih =>
    intro v
    rw [List.foldl_cons]
    rcases List.mem_cons.mp
        (ih (if selectKeyLt (selectKey p doms a) (selectKey p doms v) then a
             else v)) with h | h
    · rw [h]
      by_cases hc :
          selectKeyLt (selectKey p doms a) (selectKey p doms v) = true
      · rw [if_pos hc]; exact List.mem_cons_of_mem v (List.mem_cons_self a t)
      · rw [if_neg hc]; exact List.mem_cons_self v (a :: t)
    · exact List.mem_cons_of_mem v (List.mem_cons_of_mem a h)

lemma selectUnassignedVariable_spec (p : Puzzle) (doms : Domains) (a : Assign)
    (var : Variable) (h : selectUnassignedVariable p doms a = some var) :
    var ∈ p.vars ∧ lookup a var = none := by
  unfold selectUnassignedVariable minBySelectKey at h
  cases hu : unassignedVars p a with
  | nil => rw [hu] at h; cases h
  | cons v rest =>
    rw [hu] at h
    have hmem := foldl_selectMin_mem p doms rest v
    rw [Option.some_inj.mp h] at hmem
    have : var ∈ unassignedVars p a := by
      rw [hu]
      exact hmem
    unfold unassignedVars at this
    have := List.mem_filter.mp this
    exact ⟨this.1, Option.isNone_iff_eq_none.mp this.2⟩

/-! ### Backtracking search -/

mutual

/-- `CrosswordCreator.backtrack`: if the assignment is complete, return it;
otherwise pick an unassigned variable and try its ordered domain values.
`none` models both the Python `None` result and the (unreachable from
`solve`) `ValueError` of `min` on an empty candidate list. -/
def backtrack (p : Puzzle) (doms : Domains) (a : Assign) : Option Assign :=
  if assignmentComplete p a then some a
  else
    match hsel : selectUnassignedVariable p doms a with
    | none => none
    | some var =>
      tryValues p doms a var
        (selectUnassignedVariable_spec p doms a var hsel)
        (orderDomainValues p doms a var)
termination_by (unassignedCount p a, 1, 0)
decreasing_by
  · exact Prod.Lex.right _ (Prod.Lex.left _ _ Nat.zero_lt_one)

/-- The `for value in ...` loop of `backtrack`: extend a copy of the
assignment with `var ↦ value`; if the extension passes the consistency check,
recurse; `if result:` (Python truthiness) propagates a non-`None`, non-empty
result upward; otherwise try the next value.  The extra hypothesis records
that `var` came from `select_unassigned_variable` (used for termination). -/
def tryValues (p : Puzzle) (doms : Domains) (a : Assign) (var : Variable)
    (hvar : var ∈ p.vars ∧ lookup a var = none) :
    List Word → Option Assign
  | [] => none
  | w :: ws =>
    if consistentB p (insertA a var w) then
      match backtrack p doms (insertA a var w) with
      | some r => if r.isEmpty then tryValues p doms a var hvar ws else some r
      | none => tryValues p doms a var hvar ws
    else tryValues p doms a var hvar ws
termination_by ws => (unassignedCount p a, 0, ws.length)
decreasing_by
  · exact Prod.Lex.left _ _
      (unassignedCount_insertA_lt p a var _ hvar.1 hvar.2)
  · exact Prod.Lex.right _ (Prod.Lex.right _ (Nat.lt_succ_self _))
  · exact Prod.Lex.right _ (Prod.Lex.right _ (Nat.lt_succ_self _))

end

lemma backtrack_of_complete (p : Puzzle) (doms : Domains) (a : Assign)
    (h : assignmentComplete p a = true) : backtrack p doms a = some a := by
  rw [backtrack]
  simp [h]

lemma backtrack_of_sel_none (p : Puzzle) (doms : Domains) (a : Assign)
    (h1 : assignmentComplete p a = false)
    (h2 : selectUnassignedVariable p doms a = none) :
    backtrack p doms a = none := by
  rw [backtrack]
  simp only [h1, Bool.false_eq_true, if_false]
  split
  · rfl
  · rename_i var hsel
    rw [h2] at hsel
    cases hsel

lemma backtrack_of_sel_some (p : Puzzle) (doms : Domains) (a : Assign)
    (var : Variable) (h1 : assignmentComplete p a = false)
    (h2 : selectUnassignedVariable p doms a = some var) :
    backtrack p doms a =
      tryValues p doms a var (selectUnassignedVariable_spec p doms a var h2)
        (orderDomainValues p doms a var) := by
  rw [backtrack]
  simp only [h1, Bool.false_eq_true, if_false]
  split
  · rename_i hsel
    rw [h2] at hsel
    cases hsel
  · rename_i var2 hsel
    have : var2 = var := by
      rw [h2] at hsel
      exact (Option.some_inj.mp hsel).symm
    subst this
    rfl

lemma tryValues_nil (p : Puzzle) (doms : Domains) (a : Assign) (var : Variable)
    (hvar : var ∈ p.vars ∧ lookup a var = none) :
    tryValues p doms a var hvar [] = none := by
  rw [tryValues]

lemma tryValues_cons (p : Puzzle) (doms : Domains) (a : Assign) (var : Variable)
    (hvar : var ∈ p.vars ∧ lookup a var = none) (w : Word) (ws : List Word) :
    tryValues p doms a var hvar (w :: ws) =
      if consistentB p (insertA a var w) then
        match backtrack p doms (insertA a var w) with
        | some r =>
          if r.isEmpty then tryValues p doms a var hvar ws else some r
        | none => tryValues p doms a var hvar ws
      else tryValues p doms a var hvar ws := by
  rw [tryValues]

/-- `CrosswordCreator.solve`: enforce node consistency, run `ac3` — whose
Boolean result the source discards — and call `backtrack` on the empty
assignment with whatever domain store is left. -/
def solve (p : Puzzle) : Option Assign :=
  backtrack p (ac3 p (enforceNodeConsistency p (initDomains p))).2 []

/-- `solve` instrumented with a flag recording whether the backtracking
search was invoked.  The source (line 94) calls `self.backtrack(dict())`
unconditionally, so the flag is `true` on every path, in particular after an
`ac3` failure. -/
def solveTraced (p : Puzzle) : Option Assign × Bool :=
  (backtrack p (ac3 p (enforceNodeConsistency p (initDomains p))).2 [], true)

/-! ### Unfolding lemmas for the AC-3 loop -/

lemma ac3go_nil (p : Puzzle) (doms : Domains) :
    ac3go p doms [] = (true, doms) := by
  rw [ac3go]

lemma ac3go_cons_fail (p : Puzzle) (doms : Domains) (x y : Variable)
    (rest : List (Variable × Variable))
    (h1 : (reviseDoms p doms x y).2 = true)
    (h2 : ((reviseDoms p doms x y).1 x).isEmpty = true) :
    ac3go p doms ((x, y) :: rest) = (false, (reviseDoms p doms x y).1) := by
  rw [ac3go]
  simp [h1, h2]

lemma ac3go_cons_continue (p : Puzzle) (doms : Domains) (x y : Variable)
    (rest : List (Variable × Variable))
    (h1 : (reviseDoms p doms x y).2 = true)
    (h2 : ((reviseDoms p doms x y).1 x).isEmpty = false) :
    ac3go p doms ((x, y) :: rest) =
      ac3go p (reviseDoms p doms x y).1 (rest ++ enqueueArcs p x y) := by
  rw [ac3go]
  simp [h1, h2]

lemma ac3go_cons_skip (p : Puzzle) (doms : Domains) (x y : Variable)
    (rest : List (Variable × Variable))
    (h1 : (reviseDoms p doms x y).2 = false) :
    ac3go p doms ((x, y) :: rest) = ac3go p doms rest := by
  rw [ac3go]
  simp [h1]

lemma ac3go_subset (p : Puzzle) :
    ∀ (doms : Domains) (queue : List (Variable × Variable)) (v : Variable),
      (ac3go p doms queue).2 v ⊆ doms v := by
  intro doms queue
  induction doms, queue using ac3go.induct p with
  | case1 doms => intro v; rw [ac3go_nil]; exact fun _ h => h
  | case2 doms x y rest h1 h2 =>
    intro v
    rw [ac3go_cons_fail p doms x y rest h1 h2]
    exact reviseDoms_fst_subset p doms x y v
  | case3 doms x y rest h1 h2 ih =>
    intro v
    rw [ac3go_cons_continue p doms x y rest h1 (Bool.not_eq_true _ ▸ h2)]
    exact fun w hw => reviseDoms_fst_subset p doms x y v (ih v hw)
  | case4 doms x y rest h1 ih =>
    intro v
    rw [ac3go_cons_skip p doms x y rest (Bool.not_eq_true _ ▸ h1)]
    exact ih v

lemma ac3go_length_le (p : Puzzle) :
    ∀ (doms : Domains) (queue : List (Variable × Variable)) (v : Variable),
      ((ac3go p doms queue).2 v).length ≤ (doms v).length := by
  intro doms queue
  induction doms, queue using ac3go.induct p with
  | case1 doms => intro v; rw [ac3go_nil]
  | case2 doms x y rest h1 h2 =>
    intro v
    rw [ac3go_cons_fail p doms x y rest h1 h2]
    exact reviseDoms_length_le p doms x y v
  | case3 doms x y rest h1 h2 ih =>
    intro v
    rw [ac3go_cons_continue p doms x y rest h1 (Bool.not_eq_true _ ▸ h2)]
    exact le_trans (ih v) (reviseDoms_length_le p doms x y v)
  | case4 doms x y rest h1 ih =>
    intro v
    rw [ac3go_cons_skip p doms x y rest (Bool.not_eq_true _ ▸ h1)]
    exact ih v

/-! ### Failure propagation: an emptied domain forces a `None` result -/

lemma selectKeyLt_irrefl (k : Nat × Nat) : selectKeyLt k k = false := by
  simp [selectKeyLt]

lemma selectKeyLt_trans {k1 k2 k3 : Nat × Nat}
    (h1 : selectKeyLt k1 k2 = true) (h2 : selectKeyLt k2 k3 = true) :
    selectKeyLt k1 k3 = true := by
  simp only [selectKeyLt, Bool.or_eq_true, Bool.and_eq_true,
    decide_eq_true_eq] at h1 h2 ⊢
  omega

lemma selectKeyLt_cotrans (k1 k2 k3 : Nat × Nat)
    (h : selectKeyLt k1 k3 = true) :
    selectKeyLt k1 k2 = true ∨ selectKeyLt k2 k3 = true := by
  simp only [selectKeyLt, Bool.or_eq_true, Bool.and_eq_true,
    decide_eq_true_eq] at h ⊢
  omega

lemma foldl_selectMin_notLt (p : Puzzle) (doms : Domains) :
    ∀ (l : List Variable) (v u : Variable), u ∈ v :: l →
      selectKeyLt (selectKey p doms u)
        (selectKey p doms
          (l.foldl
            (fun best w =>
              if selectKeyLt (selectKey p doms w) (selectKey p doms best)
              then w else best)
            v)) = false := by
  intro l
  induction l with
  | nil =>
    intro v u hu
    rcases List.mem_cons.mp hu with rfl | h
    · exact selectKeyLt_irrefl _
    · cases h
  | cons a t ih =>
    intro v u hu
    rw [List.foldl_cons]
    by_cases hc : selectKeyLt (selectKey p doms a) (selectKey p doms v) = true
    · rw [if_pos hc]
      rcases List.mem_cons.mp hu with rfl | h
      · -- the seed `u` was beaten by `a`; if `u` beat the final best, then by
        -- transitivity `a` would beat it as well, contradicting minimality
        by_contra hbad
        rw [Bool.not_eq_false] at hbad
        have htr := selectKeyLt_trans hc hbad
        rw [ih a a (List.mem_cons_self a t)] at htr
        exact Bool.false_ne_true htr
      · rcases List.mem_cons.mp h with rfl | h2
        · exact ih u u (List.mem_cons_self u t)
        · exact ih a u (List.mem_cons_of_mem a h2)
    · rw [if_neg hc]
      rcases List.mem_cons.mp hu with rfl | h
      · exact ih u u (List.mem_cons_self u t)
      · rcases List.mem_cons.mp h with rfl | h2
        · -- `u` lost against the seed; if `u` beat the final best, then `u`
          -- would beat the seed or the seed would beat the final best
          by_contra hbad
          rw [Bool.not_eq_false] at hbad
          rcases selectKeyLt_cotrans _ (selectKey p doms v) _ hbad with
            h3 | h3
          · exact hc h3
          · rw [ih v v (List.mem_cons_self v t)] at h3
            exact Bool.false_ne_true h3
        · exact ih v u (List.mem_cons_of_mem v h2)

lemma mem_insertSorted (key : Word → Nat) (w u : Word) :
    ∀ l : List Word, u ∈ insertSorted key w l ↔ u = w ∨ u ∈ l := by
  intro l
  induction l with
  | nil => simp [insertSorted]
  | cons v rest ih =>
    unfold insertSorted
    by_cases hc : key w ≤ key v
    · rw [if_pos hc]
      simp [List.mem_cons]
    · rw [if_neg hc]
      simp only [List.mem_cons, ih]
      tauto

lemma mem_insertionSort (key : Word → Nat) (u : Word) :
    ∀ l : List Word, u ∈ insertionSort key l ↔ u ∈ l := by
  intro l
  induction l with
  | nil => simp [insertionSort]
  | cons w rest ih =>
    unfold insertionSort
    rw [mem_insertSorted, ih]
    simp [List.mem_cons]

lemma mem_orderDomainValues (p : Puzzle) (doms : Domains) (a : Assign)
    (var : Variable) (w : Word) :
    w ∈ orderDomainValues p doms a var ↔ w ∈ doms var :=
  mem_insertionSort _ w (doms var)

lemma lookup_nil_none (v : Variable) : lookup [] v = none := rfl

lemma assignmentComplete_empty_false (p : Puzzle) (v : Variable)
    (hv : v ∈ p.vars) : assignmentComplete p [] = false := by
  unfold assignmentComplete
  rw [Bool.and_eq_false_iff]
  left
  rw [List.all_eq_false]
  exact ⟨v, hv, by simp [lookup_nil_none]⟩

lemma unassignedVars_empty (p : Puzzle) : unassignedVars p [] = p.vars := by
  unfold unassignedVars
  rw [List.filter_eq_self]
  intro v _
  rw [lookup_nil_none]
  rfl

/-- If some puzzle variable's domain is empty, the search on the empty
assignment fails immediately: the MRV heuristic picks a variable with an
empty domain, so there are no values to try. -/
lemma backtrack_empty_assignment_none (p : Puzzle) (doms : Domains)
    (v : Variable) (hv : v ∈ p.vars) (hempty : doms v = []) :
    backtrack p doms [] = none := by
  have hcomp := assignmentComplete_empty_false p v hv
  cases hsel : selectUnassignedVariable p doms [] with
  | none =>
    exact backtrack_of_sel_none p doms [] hcomp hsel
  | some var =>
    rw [backtrack_of_sel_some p doms [] var hcomp hsel]
    have hvdom : doms var = [] := by
      unfold selectUnassignedVariable at hsel
      rw [unassignedVars_empty] at hsel
      cases hl : p.vars with
      | nil => rw [hl] at hv; cases hv
      | cons v0 rest =>
        rw [hl] at hsel
        unfold minBySelectKey at hsel
        have hbest := foldl_selectMin_notLt p doms rest v0 v (hl ▸ hv)
        rw [Option.some_inj.mp hsel] at hbest
        simp only [selectKeyLt, selectKey, hempty, Bool.or_eq_false_iff,
          decide_eq_false_iff_not, List.length_nil, Bool.and_eq_false_iff] at hbest
        have : (doms var).length = 0 := by omega
        exact List.length_eq_zero.mp this
    have : orderDomainValues p doms [] var = [] := by
      unfold orderDomainValues
      rw [hvdom]
      rfl
    rw [this]
    exact tryValues_nil p doms [] var _

lemma initialArcs_mem (p : Puzzle) (arc : Variable × Variable) :
    arc ∈ initialArcs p ↔ arc.1 ∈ p.vars ∧ arc.2 ∈ p.neighbors arc.1 := by
  unfold initialArcs
  rw [List.mem_flatMap]
  constructor
  · rintro ⟨x, hx, hmem⟩
    rw [List.mem_map] at hmem
    obtain ⟨y, hy, rfl⟩ := hmem
    exact ⟨hx, hy⟩
  · rintro ⟨h1, h2⟩
    exact ⟨arc.1, h1, List.mem_map.mpr ⟨arc.2, h2, rfl⟩⟩

lemma enqueueArcs_mem (p : Puzzle) (x y : Variable)
    (arc : Variable × Variable) :
    arc ∈ enqueueArcs p x y ↔
      arc.1 ∈ p.neighbors x ∧ arc.1 ≠ y ∧ arc.2 = x := by
  unfold enqueueArcs
  rw [List.mem_map]
  constructor
  · rintro ⟨z, hz, rfl⟩
    rw [List.mem_filter] at hz
    exact ⟨hz.1, by simpa using hz.2, rfl⟩
  · rintro ⟨h1, h2, h3⟩
    refine ⟨arc.1, List.mem_filter.mpr ⟨h1, by simpa using h2⟩, ?_⟩
    rw [← h3]

/-- If the worklist run fails, some puzzle variable ends with an empty
domain (provided every queued arc starts at a puzzle variable, which holds
for the initial queue and is preserved by re-enqueueing). -/
lemma ac3go_false_empty_domain (p : Puzzle) :
    ∀ (doms : Domains) (queue : List (Variable × Variable)),
      (∀ arc ∈ queue, arc.1 ∈ p.vars) →
      (ac3go p doms queue).1 = false →
      ∃ v ∈ p.vars, (ac3go p doms queue).2 v = [] := by
  intro doms queue
  induction doms, queue using ac3go.induct p with
  | case1 doms =>
    intro _ hfalse
    rw [ac3go_nil] at hfalse
    cases hfalse
  | case2 doms x y rest h1 h2 =>
    intro hq _
    rw [ac3go_cons_fail p doms x y rest h1 h2]
    exact ⟨x, hq (x, y) (List.mem_cons_self _ _),
      List.isEmpty_iff.mp h2⟩
  | case3 doms x y rest h1 h2 ih =>
    intro hq hfalse
    rw [ac3go_cons_continue p doms x y rest h1 (Bool.not_eq_true _ ▸ h2)] at hfalse ⊢
    refine ih ?_ hfalse
    intro arc harc
    rcases List.mem_append.mp harc with h | h
    · exact hq arc (List.mem_cons_of_mem _ h)
    · have := (enqueueArcs_mem p x y arc).mp h
      exact ((mem_neighbors p x arc.1).mp this.1).1
  | case4 doms x y rest h1 ih =>
    intro hq hfalse
    rw [ac3go_cons_skip p doms x y rest (Bool.not_eq_true _ ▸ h1)] at hfalse ⊢
    exact ih (fun arc harc => hq arc (List.mem_cons_of_mem _ harc)) hfalse

/-! ### Search soundness -/

lemma lookup_mem {a : Assign} {v : Variable} {w : Word}
    (h : lookup a v = some w) : (v, w) ∈ a := by
  induction a with
  | nil => cases h
  | cons kv rest ih =>
    obtain ⟨u, z⟩ := kv
    unfold lookup at h
    by_cases hv : v = u
    · rw [if_pos hv] at h
      rw [hv, Option.some_inj.mp h]
      exact List.mem_cons_self _ _
    · rw [if_neg hv] at h
      exact List.mem_cons_of_mem _ (ih h)

lemma lookup_eq_none_iff {a : Assign} {v : Variable} :
    lookup a v = none ↔ v ∉ a.map Prod.fst := by
  induction a with
  | nil => simp [lookup]
  | cons kv rest ih =>
    obtain ⟨u, z⟩ := kv
    unfold lookup
    by_cases hv : v = u
    · simp [hv]
    · simp [hv, ih]

lemma keysNodup_insertA_fresh {a : Assign} {v : Variable} (w : Word)
    (hnone : lookup a v = none) (hnd : KeysNodup a) :
    KeysNodup (insertA a v w) := by
  rw [insertA_of_lookup_none a v w hnone]
  unfold KeysNodup at hnd ⊢
  rw [List.map_append]
  simp only [List.map_cons, List.map_nil]
  rw [List.nodup_append]
  refine ⟨hnd, List.nodup_singleton v, ?_⟩
  intro u hu hv
  rw [List.mem_singleton] at hv
  subst hv
  exact lookup_eq_none_iff.mp hnone hu

lemma lookup_some_not_isEmpty {a : Assign} {v : Variable} {w : Word}
    (h : lookup a v = some w) : a.isEmpty = false := by
  cases a with
  | nil => cases h
  | cons kv rest => rfl

/-- Everything `backtrack` promises about a returned assignment: it is
complete, it extends the input assignment, it preserves distinctness of the
dict keys, it is consistent whenever the input was, and every binding either
came from the input or uses a word of the searched variable's domain. -/
lemma backtrack_sound (p : Puzzle) (doms : Domains) :
    ∀ a r, backtrack p doms a = some r →
      assignmentComplete p r = true ∧
      (∀ v w, lookup a v = some w → lookup r v = some w) ∧
      (KeysNodup a → KeysNodup r) ∧
      (consistentB p a = true → consistentB p r = true) ∧
      (∀ v w, lookup r v = some w → lookup a v = some w ∨ w ∈ doms v) := by
  intro a0
  refine backtrack.induct p doms
    (fun a => ∀ r, backtrack p doms a = some r →
      assignmentComplete p r = true ∧
      (∀ v w, lookup a v = some w → lookup r v = some w) ∧
      (KeysNodup a → KeysNodup r) ∧
      (consistentB p a = true → consistentB p r = true) ∧
      (∀ v w, lookup r v = some w → lookup a v = some w ∨ w ∈ doms v))
    (fun a var hvar ws =>
      (∀ w ∈ ws, w ∈ doms var) →
      ∀ r, tryValues p doms a var hvar ws = some r →
        assignmentComplete p r = true ∧
        (∀ v w, lookup a v = some w → lookup r v = some w) ∧
        (KeysNodup a → KeysNodup r) ∧
        (consistentB p a = true → consistentB p r = true) ∧
        (∀ v w, lookup r v = some w → lookup a v = some w ∨ w ∈ doms v))
    ?_ ?_ ?_ ?_ ?_ ?_ ?_ ?_ a0
  · intro a hcomp r hr
    rw [backtrack_of_complete p doms a hcomp] at hr
    obtain rfl := Option.some_inj.mp hr
    exact ⟨hcomp, fun v w h => h, id, id, fun v w h => Or.inl h⟩
  · intro a hcomp hsel r hr
    rw [backtrack_of_sel_none p doms a (Bool.not_eq_true _ ▸ hcomp) hsel]
      at hr
    cases hr
  · intro a hcomp var hsel ih r hr
    rw [backtrack_of_sel_some p doms a var (Bool.not_eq_true _ ▸ hcomp) hsel]
      at hr
    exact ih (fun w hw => (mem_orderDomainValues p doms a var w).mp hw) r hr
  · intro a var hvar hsub r hr
    rw [tryValues_nil] at hr
    cases hr
  · intro a var hvar w ws hcons r0 hbt hempty ih1 ih2 hsub r hr
    rw [tryValues_cons, if_pos hcons, hbt] at hr
    simp only [hempty, if_true] at hr
    exact ih2 (fun u hu => hsub u (List.mem_cons_of_mem w hu)) r hr
  · intro a var hvar w ws hcons r0 hbt hempty ih1 hsub r hr
    rw [tryValues_cons, if_pos hcons, hbt] at hr
    rw [Bool.not_eq_true] at hempty
    simp only [hempty, if_false] at hr
    obtain rfl := Option.some_inj.mp hr
    obtain ⟨hrcomp, hrext, hrnd, hrcons, hrdom⟩ := ih1 r0 hbt
    refine ⟨hrcomp, ?_, ?_, fun _ => hrcons ?_, ?_⟩
    · intro v w2 hl
      have hvne : v ≠ var := fun hev => by
        rw [hev, hvar.2] at hl
        cases hl
      exact hrext v w2
        ((lookup_insertA_fresh_ne a var v w hvar.2 hvne).symm ▸ hl)
    · intro hnd
      exact hrnd (keysNodup_insertA_fresh w hvar.2 hnd)
    · exact hcons
    · intro v w2 hl
      rcases hrdom v w2 hl with h | h
      · by_cases hvv : v = var
        · subst hvv
          rw [lookup_insertA_fresh_self a v w hvar.2] at h
          obtain rfl := Option.some_inj.mp h
          exact Or.inr (hsub w (List.mem_cons_self _ _))
        · rw [lookup_insertA_fresh_ne a var v w hvar.2 hvv] at h
          exact Or.inl h
      · exact Or.inr h
  · intro a var hvar w ws hcons hbt ih1 ih2 hsub r hr
    rw [tryValues_cons, if_pos hcons, hbt] at hr
    exact ih2 (fun u hu => hsub u (List.mem_cons_of_mem w hu)) r hr
  · intro a var hvar w ws hcons ih hsub r hr
    rw [tryValues_cons, if_neg hcons] at hr
    exact ih (fun u hu => hsub u (List.mem_cons_of_mem w hu)) r hr

/-! ### State-threaded search (frame properties)

`backtrack` reads the mutable attribute `self.domains` (through
`select_unassigned_variable`, `order_domain_values` and its own loop) and
receives the `assignment` dict by reference, but its body assigns to
neither: extensions are made on `assignment.copy()`.  The state-threaded
translation below makes both pieces of mutable state explicit, returning
their final values alongside the result; recursive calls thread the store in
execution order. -/

mutual

/-- State-threaded `CrosswordCreator.backtrack`: the extra components are the
final value of `self.domains` and the final value of the `assignment`
argument object. -/
def backtrackST (p : Puzzle) (doms : Domains) (a : Assign) :
    Option Assign × Domains × Assign :=
  if assignmentComplete p a then (some a, doms, a)
  else
    match hsel : selectUnassignedVariable p doms a with
    | none => (none, doms, a)
    | some var =>
      tryValuesST p doms a var
        (selectUnassignedVariable_spec p doms a var hsel)
        (orderDomainValues p doms a var)
termination_by (unassignedCount p a, 1, 0)
decreasing_by
  · exact Prod.Lex.right _ (Prod.Lex.left _ _ Nat.zero_lt_one)

/-- State-threaded value loop of `backtrack`: the domain store returned by
the recursive call is threaded into the rest of the loop. -/
def tryValuesST (p : Puzzle) (doms : Domains) (a : Assign) (var : Variable)
    (hvar : var ∈ p.vars ∧ lookup a var = none) :
    List Word → Option Assign × Domains × Assign
  | [] => (none, doms, a)
  | w :: ws =>
    if consistentB p (insertA a var w) then
      match backtrackST p doms (insertA a var w) with
      | (some r, doms2, _) =>
        if r.isEmpty then tryValuesST p doms2 a var hvar ws
        else (some r, doms2, a)
      | (none, doms2, _) => tryValuesST p doms2 a var hvar ws
    else tryValuesST p doms a var hvar ws
termination_by ws => (unassignedCount p a, 0, ws.length)
decreasing_by
  · exact Prod.Lex.left _ _
      (unassignedCount_insertA_lt p a var _ hvar.1 hvar.2)
  · exact Prod.Lex.right _ (Prod.Lex.right _ (Nat.lt_succ_self _))
  · exact Prod.Lex.right _ (Prod.Lex.right _ (Nat.lt_succ_self _))
  · exact Prod.Lex.right _ (Prod.Lex.right _ (Nat.lt_succ_self _))

end

lemma tryValuesST_nil (p : Puzzle) (doms : Domains) (a : Assign)
    (var : Variable) (hvar : var ∈ p.vars ∧ lookup a var = none) :
    tryValuesST p doms a var hvar [] = (none, doms, a) := by
  rw [tryValuesST]

lemma tryValuesST_cons (p : Puzzle) (doms : Domains) (a : Assign)
    (var : Variable) (hvar : var ∈ p.vars ∧ lookup a var = none) (w : Word)
    (ws : List Word) :
    tryValuesST p doms a var hvar (w :: ws) =
      (if consistentB p (insertA a var w) then
        match backtrackST p doms (insertA a var w) with
        | (some r, doms2, _) =>
          if r.isEmpty then tryValuesST p doms2 a var hvar ws
          else (some r, doms2, a)
        | (none, doms2, _) => tryValuesST p doms2 a var hvar ws
      else tryValuesST p doms a var hvar ws) := by
  rw [tryValuesST]

lemma backtrackST_of_complete (p : Puzzle) (doms : Domains) (a : Assign)
    (h : assignmentComplete p a = true) :
    backtrackST p doms a = (some a, doms, a) := by
  rw [backtrackST]
  simp [h]

lemma backtrackST_of_sel_none (p : Puzzle) (doms : Domains) (a : Assign)
    (h1 : assignmentComplete p a = false)
    (h2 : selectUnassignedVariable p doms a = none) :
    backtrackST p doms a = (none, doms, a) := by
  rw [backtrackST]
  simp only [h1, Bool.false_eq_true, if_false]
  split
  · rfl
  · rename_i var hsel
    rw [h2] at hsel
    cases hsel

lemma backtrackST_of_sel_some (p : Puzzle) (doms : Domains) (a : Assign)
    (var : Variable) (h1 : assignmentComplete p a = false)
    (h2 : selectUnassignedVariable p doms a = some var) :
    backtrackST p doms a =
      tryValuesST p doms a var
        (selectUnassignedVariable_spec p doms a var h2)
        (orderDomainValues p doms a var) := by
  rw [backtrackST]
  simp only [h1, Bool.false_eq_true, if_false]
  split
  · rename_i hsel
    rw [h2] at hsel
    cases hsel
  · rename_i var2 hsel
    have : var2 = var := by
      rw [h2] at hsel
      exact (Option.some_inj.mp hsel).symm
    subst this
    rfl

/-- The state-threaded search returns the plain search's result and leaves
both pieces of threaded state exactly as received. -/
lemma backtrackST_spec (p : Puzzle) :
    ∀ (doms : Domains) (a : Assign),
      backtrackST p doms a = (backtrack p doms a, doms, a) := by
  intro doms0 a0
  refine backtrackST.induct p
    (fun doms a => backtrackST p doms a = (backtrack p doms a, doms, a))
    (fun doms a var hvar ws =>
      tryValuesST p doms a var hvar ws =
        (tryValues p doms a var hvar ws, doms, a))
    ?_ ?_ ?_ ?_ ?_ ?_ ?_ ?_ doms0 a0
  · intro doms a hcomp
    rw [backtrackST_of_complete p doms a hcomp,
      backtrack_of_complete p doms a hcomp]
  · intro doms a hcomp hsel
    rw [backtrackST_of_sel_none p doms a (Bool.not_eq_true _ ▸ hcomp) hsel,
      backtrack_of_sel_none p doms a (Bool.not_eq_true _ ▸ hcomp) hsel]
  · intro doms a hcomp var hsel ih
    rw [backtrackST_of_sel_some p doms a var (Bool.not_eq_true _ ▸ hcomp)
      hsel, backtrack_of_sel_some p doms a var (Bool.not_eq_true _ ▸ hcomp)
      hsel]
    exact ih
  · intro doms a var hvar
    rw [tryValuesST_nil, tryValues_nil]
  · intro doms a var hvar w ws hcons r doms2 x hbt hempty ih1 ih2
    rw [tryValuesST_cons, tryValues_cons, if_pos hcons, if_pos hcons, hbt]
    rw [hbt] at ih1
    have hr : backtrack p doms (insertA a var w) = some r := by
      have := congrArg Prod.fst ih1
      simpa using this.symm
    rw [hr]
    simp only [hempty, if_true]
    have hdoms2 : doms2 = doms := by
      have := congrArg (fun t => t.2.1) ih1
      simpa using this
    rw [hdoms2] at ih2 ⊢
    exact ih2
  · intro doms a var hvar w ws hcons r doms2 x hbt hempty ih1
    rw [tryValuesST_cons, tryValues_cons, if_pos hcons, if_pos hcons, hbt]
    rw [hbt] at ih1
    have hr : backtrack p doms (insertA a var w) = some r := by
      have := congrArg Prod.fst ih1
      simpa using this.symm
    rw [hr]
    rw [Bool.not_eq_true] at hempty
    simp only [hempty, Bool.false_eq_true, if_false]
    have hdoms2 : doms2 = doms := by
      have := congrArg (fun t => t.2.1) ih1
      simpa using this
    rw [hdoms2]
  · intro doms a var hvar w ws hcons doms2 x hbt ih1 ih2
    rw [tryValuesST_cons, tryValues_cons, if_pos hcons, if_pos hcons, hbt]
    rw [hbt] at ih1
    have hr : backtrack p doms (insertA a var w) = none := by
      have := congrArg Prod.fst ih1
      simpa using this.symm
    rw [hr]
    have hdoms2 : doms2 = doms := by
      have := congrArg (fun t => t.2.1) ih1
      simpa using this
    rw [hdoms2] at ih2 ⊢
    exact ih2
  · intro doms a var hvar w ws hcons ih
    rw [tryValuesST_cons, tryValues_cons, if_neg hcons, if_neg hcons]
    exact ih

/-! ### The AC-3 guarantee -/

/-- The arc `(x, y)` is consistent in `doms`: every word in `Domain[x]` has
a supporting word in `Domain[y]` at the overlap position pair (vacuous when
the pair has no overlap). -/
def arcConsistent (p : Puzzle) (doms : Domains) (x y : Variable) : Prop :=
  ∀ ov, p.overlaps x y = some ov →
    ∀ w ∈ doms x, ∃ w2 ∈ doms y, w.get? ov.1 = w2.get? ov.2

lemma arcConsistent_preserved_of (p : Puzzle) {d d' : Domains}
    {u v : Variable} (hsub : d' u ⊆ d u) (heq : d' v = d v)
    (h : arcConsistent p d u v) : arcConsistent p d' u v := by
  intro ov hov w hw
  obtain ⟨w2, hw2, hag⟩ := h ov hov w (hsub hw)
  exact ⟨w2, heq ▸ hw2, hag⟩

lemma reviseDoms_fst_at_some (p : Puzzle) (doms : Domains) (x y : Variable)
    (ov : Nat × Nat) (hov : p.overlaps x y = some ov) :
    (reviseDoms p doms x y).1 x =
      (doms x).filter (fun w => hasSupport ov (doms y) w) := by
  simp [reviseDoms, hov]

/-- `revise(x, y)` makes the arc `(x, y)` consistent. -/
lemma arcConsistent_after_revise (p : Puzzle) (doms : Domains)
    (x y : Variable) (hyx : y ≠ x) :
    arcConsistent p (reviseDoms p doms x y).1 x y := by
  intro ov hov w hw
  rw [reviseDoms_fst_at_some p doms x y ov hov] at hw
  rw [reviseDoms_fst_eq_of_ne p doms x y y hyx]
  have hsup := List.of_mem_filter hw
  unfold hasSupport at hsup
  rw [List.any_eq_true] at hsup
  obtain ⟨w2, hw2, hag⟩ := hsup
  exact ⟨w2, hw2, of_decide_eq_true hag⟩

/-- The classic AC-3 argument for not re-enqueuing the reverse arc: a word
removed from `Domain[x]` had no support in `Domain[y]`, so it cannot have
been the support of any surviving word of `Domain[y]` — the arc `(y, x)`
stays consistent across `revise(x, y)`. -/
lemma arcConsistent_rev_preserved (p : Puzzle) (hWF : p.WF)
    {doms : Domains} {x y : Variable} (hx : x ∈ p.vars) (hy : y ∈ p.vars)
    (hxy : x ≠ y) (h : arcConsistent p doms y x) :
    arcConsistent p (reviseDoms p doms x y).1 y x := by
  intro ov2 hov2 w hw
  rw [reviseDoms_fst_eq_of_ne p doms x y y (Ne.symm hxy)] at hw
  obtain ⟨w2, hw2, hag⟩ := h ov2 hov2 w hw
  cases hov : p.overlaps x y with
  | none =>
    have heq : (reviseDoms p doms x y).1 x = doms x := by
      simp [reviseDoms, hov]
    exact ⟨w2, heq ▸ hw2, hag⟩
  | some ov =>
    have hsym := WF.overlaps_symm hWF hx hy hov
    have hov2eq : ov2 = (ov.2, ov.1) := by
      rw [hov2] at hsym
      exact Option.some_inj.mp hsym
    subst hov2eq
    refine ⟨w2, ?_, hag⟩
    rw [reviseDoms_fst_at_some p doms x y ov hov]
    refine List.mem_filter.mpr ⟨hw2, ?_⟩
    unfold hasSupport
    rw [List.any_eq_true]
    exact ⟨w, hw, decide_eq_true hag.symm⟩

/-- When `revise` reports no removal, the arc was already consistent. -/
lemma arcConsistent_of_revise_false (p : Puzzle) (doms : Domains)
    (x y : Variable) (h : (reviseDoms p doms x y).2 = false) :
    arcConsistent p doms x y := by
  intro ov hov w hw
  have hall : ∀ u ∈ doms x, hasSupport ov (doms y) u = true := by
    intro u hu
    by_contra hbad
    have hmem : u ∈ (doms x).filter (fun u => !hasSupport ov (doms y) u) := by
      simp [List.mem_filter, hu, hbad]
    simp only [reviseDoms, hov, Bool.not_eq_false', List.isEmpty_iff] at h
    rw [h] at hmem
    exact absurd hmem (List.not_mem_nil u)
  have := hall w hw
  unfold hasSupport at this
  rw [List.any_eq_true] at this
  obtain ⟨w2, hw2, hag⟩ := this
  exact ⟨w2, hw2, of_decide_eq_true hag⟩

/-- Conversely, a consistent arc is never revised. -/
lemma revise_false_of_arcConsistent (p : Puzzle) (doms : Domains)
    (x y : Variable) (h : arcConsistent p doms x y) :
    (reviseDoms p doms x y).2 = false := by
  cases hov : p.overlaps x y with
  | none => simp [reviseDoms, hov]
  | some ov =>
    simp only [reviseDoms, hov, Bool.not_eq_false', List.isEmpty_iff]
    rw [List.filter_eq_nil_iff]
    intro w hw
    obtain ⟨w2, hw2, hag⟩ := h ov hov w hw
    have hsupp : hasSupport ov (doms y) w = true := by
      unfold hasSupport
      rw [List.any_eq_true]
      exact ⟨w2, hw2, decide_eq_true hag⟩
    simp [hsupp]

/-- The AC-3 loop invariant: on success, every neighbor arc that is no
longer queued is consistent; at termination the queue is empty, so every
neighbor arc is consistent in the final domain store. -/
lemma ac3go_success_invariant (p : Puzzle) (hWF : p.WF) :
    ∀ (doms : Domains) (queue : List (Variable × Variable)),
      (∀ arc ∈ queue, arc.1 ∈ p.vars ∧ arc.2 ∈ p.vars ∧ arc.1 ≠ arc.2) →
      (∀ x ∈ p.vars, ∀ y ∈ p.neighbors x,
        (x, y) ∈ queue ∨ arcConsistent p doms x y) →
      (ac3go p doms queue).1 = true →
      ∀ x ∈ p.vars, ∀ y ∈ p.neighbors x,
        arcConsistent p (ac3go p doms queue).2 x y := by
  intro doms0 queue0
  induction doms0, queue0 using ac3go.induct p with
  | case1 doms =>
    intro hok hinv htrue x hx y hy
    rw [ac3go_nil]
    rcases hinv x hx y hy with hq | hc
    · cases hq
    · exact hc
  | case2 doms x y rest h1 h2 =>
    intro hok hinv htrue
    rw [ac3go_cons_fail p doms x y rest h1 h2] at htrue
    cases htrue
  | case3 doms x y rest h1 h2 ih =>
    intro hok hinv htrue
    rw [ac3go_cons_continue p doms x y rest h1 (Bool.not_eq_true _ ▸ h2)]
      at htrue ⊢
    obtain ⟨hxv, hyv, hxyne⟩ := hok (x, y) (List.mem_cons_self _ _)
    refine ih ?_ ?_ htrue
    · intro arc harc
      rcases List.mem_append.mp harc with hr | he
      · exact hok arc (List.mem_cons_of_mem _ hr)
      · obtain ⟨hz, hzy, hz2⟩ := (enqueueArcs_mem p x y arc).mp he
        obtain ⟨hzv, hzx, -⟩ := (mem_neighbors p x arc.1).mp hz
        exact ⟨hzv, hz2 ▸ hxv, hz2 ▸ hzx⟩
    · intro u hu v hv
      by_cases hvx : v = x
      · subst hvx
        by_cases huy : u = y
        · subst huy
          rcases hinv u hu v hv with hq | hc
          · rcases List.mem_cons.mp hq with heq | hrest
            · exact absurd (congrArg Prod.fst heq)
                (by simpa using fun h => hxyne h.symm)
            · exact Or.inl (List.mem_append_left _ hrest)
          · exact Or.inr (arcConsistent_rev_preserved p hWF hxv hu
              (by simpa using hxyne) hc)
        · -- the arc (u, v) is re-enqueued
          refine Or.inl (List.mem_append_right _ ?_)
          rw [enqueueArcs_mem p v y (u, v)]
          obtain ⟨hvv, hvu, hovs⟩ := (mem_neighbors p u v).mp hv
          obtain ⟨ov, hov⟩ := Option.isSome_iff_exists.mp hovs
          have hsym := WF.overlaps_symm hWF hvv hu hov
          refine ⟨(mem_neighbors p v u).mpr ⟨hu, fun h => hvu h.symm, ?_⟩,
            huy, rfl⟩
          rw [hsym]
          rfl
      · rcases hinv u hu v hv with hq | hc
        · rcases List.mem_cons.mp hq with heq | hrest
          · have hux : u = x := congrArg Prod.fst heq
            have hvy : v = y := congrArg Prod.snd heq
            subst hux
            subst hvy
            exact Or.inr (arcConsistent_after_revise p doms u v
              (fun h => hvx h))
          · exact Or.inl (List.mem_append_left _ hrest)
        · refine Or.inr (arcConsistent_preserved_of p ?_ ?_ hc)
          · exact reviseDoms_fst_subset p doms x y u
          · exact reviseDoms_fst_eq_of_ne p doms x y v hvx
  | case4 doms x y rest h1 ih =>
    intro hok hinv htrue
    rw [ac3go_cons_skip p doms x y rest (Bool.not_eq_true _ ▸ h1)]
      at htrue ⊢
    refine ih (fun arc harc => hok arc (List.mem_cons_of_mem _ harc)) ?_
      htrue
    intro u hu v hv
    rcases hinv u hu v hv with hq | hc
    · rcases List.mem_cons.mp hq with heq | hrest
      · have hux : u = x := congrArg Prod.fst heq
        have hvy : v = y := congrArg Prod.snd heq
        subst hux
        subst hvy
        exact Or.inr (arcConsistent_of_revise_false p doms u v
          (Bool.not_eq_true _ ▸ h1))
      · exact Or.inl hrest
    · exact Or.inr hc

/-- A worklist of already-consistent arcs is drained without any change. -/
lemma ac3go_noop (p : Puzzle) (doms : Domains) :
    ∀ queue : List (Variable × Variable),
      (∀ arc ∈ queue, (reviseDoms p doms arc.1 arc.2).2 = false) →
      ac3go p doms queue = (true, doms) := by
  intro queue
  induction queue with
  | nil => intro _; exact ac3go_nil p doms
  | cons arc rest ih =>
    intro h
    obtain ⟨x, y⟩ := arc
    rw [ac3go_cons_skip p doms x y rest (h (x, y) (List.mem_cons_self _ _))]
    exact ih fun arc harc => h arc (List.mem_cons_of_mem _ harc)

/-- `ac3`'s guarantee on success, packaged for the initial arc list. -/
lemma ac3_success_arcConsistent (p : Puzzle) (hWF : p.WF) (doms : Domains)
    (h : (ac3 p doms).1 = true) :
    ∀ x ∈ p.vars, ∀ y ∈ p.neighbors x,
      arcConsistent p (ac3 p doms).2 x y := by
  unfold ac3 at h ⊢
  refine ac3go_success_invariant p hWF doms (initialArcs p) ?_ ?_ h
  · intro arc harc
    obtain ⟨h1, h2⟩ := (initialArcs_mem p arc).mp harc
    obtain ⟨h2v, h2ne, -⟩ := (mem_neighbors p arc.1 arc.2).mp h2
    exact ⟨h1, h2v, fun he => h2ne he.symm⟩
  · intro x hx y hy
    exact Or.inl ((initialArcs_mem p (x, y)).mpr ⟨hx, hy⟩)

/-! ### Characterizing the consistency checker -/

lemma distinctLenCheck_iff :
    ∀ (a : Assign) (seen : List Word),
      distinctLenCheck a seen = true ↔
        ((∀ kv ∈ a, kv.1.length = kv.2.length) ∧
          (a.map Prod.snd).Nodup ∧ ∀ w ∈ a.map Prod.snd, w ∉ seen) := by
  intro a
  induction a with
  | nil => intro seen; simp [distinctLenCheck]
  | cons kv rest ih =>
    intro seen
    obtain ⟨v, w⟩ := kv
    unfold distinctLenCheck
    by_cases h1 : v.length = w.length
    · by_cases h2 : w ∈ seen
      · rw [if_pos (by simp [h2])]
        constructor
        · intro h; cases h
        · rintro ⟨-, -, hseen⟩
          exact absurd h2 (hseen w
            (List.mem_map.mpr ⟨(v, w), List.mem_cons_self _ _, rfl⟩))
      · rw [if_neg (by simp [h1, h2]), ih (w :: seen)]
        constructor
        · rintro ⟨hlen, hnd, hseen⟩
          refine ⟨?_, ?_, ?_⟩
          · intro kv2 hkv2
            rcases List.mem_cons.mp hkv2 with rfl | hkv2
            · exact h1
            · exact hlen kv2 hkv2
          · rw [List.map_cons, List.nodup_cons]
            refine ⟨fun hmem => ?_, hnd⟩
            exact hseen w hmem (List.mem_cons_self _ _)
          · intro w2 hw2
            rw [List.map_cons, List.mem_cons] at hw2
            rcases hw2 with rfl | hw2
            · exact h2
            · intro hin
              exact hseen w2 hw2 (List.mem_cons_of_mem _ hin)
        · rintro ⟨hlen, hnd, hseen⟩
          rw [List.map_cons, List.nodup_cons] at hnd
          refine ⟨fun kv2 hkv2 => hlen kv2 (List.mem_cons_of_mem _ hkv2),
            hnd.2, ?_⟩
          intro w2 hw2 hin
          rcases List.mem_cons.mp hin with rfl | hin2
          · exact hnd.1 hw2
          · exact hseen w2 (List.mem_cons_of_mem _ hw2) hin2
    · rw [if_pos (by rw [decide_eq_true h1, Bool.true_or])]
      constructor
      · intro h; cases h
      · rintro ⟨hlen, -, -⟩
        exact absurd (hlen (v, w) (List.mem_cons_self _ _)) h1

lemma overlapsCheckCell_iff (p : Puzzle) (a : Assign) (kv : Variable × Word)
    (v2 : Variable) :
    ((match lookup a v2 with
      | none => true
      | some w2 =>
        match p.overlaps kv.1 v2 with
        | none => true
        | some ov =>
          decide (kv.2.get? ov.1 = w2.get? ov.2)) = true) ↔
      (∀ w2, lookup a v2 = some w2 → ∀ ov, p.overlaps kv.1 v2 = some ov →
        kv.2.get? ov.1 = w2.get? ov.2) := by
  cases hl : lookup a v2 with
  | none => simp
  | some w2 =>
    cases hov : p.overlaps kv.1 v2 with
    | none => simp [hov]
    | some ov => simp [hov]

lemma overlapsCheck_iff (p : Puzzle) (a : Assign) :
    overlapsCheck p a = true ↔
      ∀ kv ∈ a, ∀ v2 ∈ p.neighbors kv.1, ∀ w2, lookup a v2 = some w2 →
        ∀ ov, p.overlaps kv.1 v2 = some ov →
          kv.2.get? ov.1 = w2.get? ov.2 := by
  unfold overlapsCheck
  rw [List.all_eq_true]
  constructor
  · intro h kv hkv v2 hv2
    have := List.all_eq_true.mp (h kv hkv) v2 hv2
    exact (overlapsCheckCell_iff p a kv v2).mp this
  · intro h kv hkv
    rw [List.all_eq_true]
    intro v2 hv2
    exact (overlapsCheckCell_iff p a kv v2).mpr (h kv hkv v2 hv2)

lemma consistentB_empty (p : Puzzle) : consistentB p [] = true := rfl

/-- Everything that `consistent` returning `true` means, phrased through
`lookup`. -/
lemma consistentB_true_spec (p : Puzzle) (a : Assign)
    (h : consistentB p a = true) :
    (∀ v w, lookup a v = some w → w.length = v.length) ∧
    (∀ v1 w1 v2 w2, lookup a v1 = some w1 → lookup a v2 = some w2 →
      v1 ≠ v2 → w1 ≠ w2) ∧
    (∀ v1 w1, lookup a v1 = some w1 → ∀ v2 ∈ p.neighbors v1,
      ∀ w2, lookup a v2 = some w2 → ∀ ov, p.overlaps v1 v2 = some ov →
        w1.get? ov.1 = w2.get? ov.2) := by
  unfold consistentB at h
  rw [Bool.and_eq_true] at h
  obtain ⟨hdl, hoc⟩ := h
  obtain ⟨hlen, hnd, -⟩ := (distinctLenCheck_iff a []).mp hdl
  refine ⟨?_, ?_, ?_⟩
  · intro v w hl
    exact (hlen (v, w) (lookup_mem hl)).symm
  · intro v1 w1 v2 w2 h1 h2 hne heq
    subst heq
    have := List.inj_on_of_nodup_map hnd (lookup_mem h1) (lookup_mem h2) rfl
    exact hne (congrArg Prod.fst this)
  · intro v1 w1 h1 v2 hv2 w2 h2 ov hov
    exact (overlapsCheck_iff p a).mp hoc (v1, w1) (lookup_mem h1) v2 hv2 w2
      h2 ov hov

/-! ### Search completeness -/

/-- A complete, consistent assignment whose bindings beyond those of `a` are
drawn from the domain store — what the spec's search-completeness property
asks the search to find when it exists (spec §8). -/
def GoodExtension (p : Puzzle) (doms : Domains) (a F : Assign) : Prop :=
  assignmentComplete p F = true ∧ consistentB p F = true ∧
    (∀ v w, lookup a v = some w → lookup F v = some w) ∧
    (∀ v w, lookup F v = some w → lookup a v = some w ∨ w ∈ doms v)

lemma mem_lookup_of_keysNodup :
    ∀ {a : Assign}, KeysNodup a → ∀ {v : Variable} {w : Word},
      (v, w) ∈ a → lookup a v = some w := by
  intro a
  induction a with
  | nil => intro _ v w h; cases h
  | cons kv rest ih =>
    intro hnd v w hmem
    obtain ⟨u, z⟩ := kv
    unfold KeysNodup at hnd
    rw [List.map_cons, List.nodup_cons] at hnd
    rcases List.mem_cons.mp hmem with heq | hmem2
    · obtain ⟨rfl, rfl⟩ := Prod.mk.injEq .. ▸ heq
      unfold lookup
      rw [if_pos rfl]
    · have hvne : v ≠ u := by
        rintro rfl
        exact hnd.1 (List.mem_map.mpr ⟨(v, w), hmem2, rfl⟩)
      unfold lookup
      rw [if_neg hvne]
      exact ih hnd.2 hmem2

/-- Restricting a consistent assignment stays consistent: if every binding
of `b` is a binding of `F` and `F` passes the checker, so does `b`. -/
lemma consistentB_of_extends (p : Puzzle) (b F : Assign)
    (hnd : KeysNodup b) (hext : ∀ v w, lookup b v = some w → lookup F v = some w)
    (hF : consistentB p F = true) : consistentB p b = true := by
  obtain ⟨hFlen, hFdist, hFover⟩ := consistentB_true_spec p F hF
  unfold consistentB
  rw [Bool.and_eq_true]
  constructor
  · rw [distinctLenCheck_iff]
    refine ⟨?_, ?_, by simp⟩
    · intro kv hkv
      have hl := hext kv.1 kv.2 (mem_lookup_of_keysNodup hnd
        (by rw [Prod.mk.eta] at *; exact hkv))
      exact (hFlen kv.1 kv.2 hl).symm
    · have hbnd : b.Nodup := List.Nodup.of_map Prod.fst hnd
      rw [List.nodup_map_iff_inj_on hbnd]
      intro kv1 h1 kv2 h2 hsnd
      have hl1 := hext kv1.1 kv1.2 (mem_lookup_of_keysNodup hnd
        (by rw [Prod.mk.eta] at *; exact h1))
      have hl2 := hext kv2.1 kv2.2 (mem_lookup_of_keysNodup hnd
        (by rw [Prod.mk.eta] at *; exact h2))
      have hfst : kv1.1 = kv2.1 := by
        by_contra hne
        exact hFdist kv1.1 kv1.2 kv2.1 kv2.2 hl1 hl2 hne hsnd
      exact Prod.ext hfst hsnd
  · rw [overlapsCheck_iff]
    intro kv hkv v2 hv2 w2 h2 ov hov
    have hl1 := hext kv.1 kv.2 (mem_lookup_of_keysNodup hnd
      (by rw [Prod.mk.eta] at *; exact hkv))
    exact hFover kv.1 kv.2 hl1 v2 hv2 w2 (hext v2 w2 h2) ov hov

lemma assignmentComplete_of_no_unassigned (p : Puzzle) (a : Assign)
    (hkeys : ∀ kv ∈ a, kv.1 ∈ p.vars) (hnil : unassignedVars p a = []) :
    assignmentComplete p a = true := by
  unfold assignmentComplete
  rw [Bool.and_eq_true, List.all_eq_true, List.all_eq_true]
  constructor
  · intro v hv
    have := List.filter_eq_nil_iff.mp hnil v hv
    cases hl : lookup a v with
    | none => rw [hl] at this; exact (this rfl).elim
    | some w => rfl
  · intro kv hkv
    exact decide_eq_true (hkeys kv hkv)

/-- If a good extension exists, the search succeeds (strong induction on the
number of unassigned variables). -/
lemma backtrack_some_of_goodExtension (p : Puzzle) (doms : Domains) :
    ∀ (n : Nat) (a : Assign), unassignedCount p a ≤ n →
      KeysNodup a → (∀ kv ∈ a, kv.1 ∈ p.vars) →
      ∀ F, assignmentComplete p F = true → consistentB p F = true →
        (∀ v w, lookup a v = some w → lookup F v = some w) →
        (∀ v w, lookup F v = some w → lookup a v = some w ∨ w ∈ doms v) →
        ∃ r, backtrack p doms a = some r := by
  intro n
  induction n with
  | zero =>
    intro a hcount hnd hkeys F hFcomp hFcons hext hdom
    have hnil : unassignedVars p a = [] :=
      List.length_eq_zero.mp (Nat.le_zero.mp hcount)
    exact ⟨a, backtrack_of_complete p doms a
      (assignmentComplete_of_no_unassigned p a hkeys hnil)⟩
  | succ n ih =>
    intro a hcount hnd hkeys F hFcomp hFcons hext hdom
    by_cases hcomp : assignmentComplete p a = true
    · exact ⟨a, backtrack_of_complete p doms a hcomp⟩
    · have hvarex : unassignedVars p a ≠ [] := fun hnil =>
        hcomp (assignmentComplete_of_no_unassigned p a hkeys hnil)
      obtain ⟨var, hsel⟩ :
          ∃ var, selectUnassignedVariable p doms a = some var := by
        unfold selectUnassignedVariable minBySelectKey
        cases hu : unassignedVars p a with
        | nil => exact absurd hu hvarex
        | cons v rest => exact ⟨_, rfl⟩
      have hspec := selectUnassignedVariable_spec p doms a var hsel
      rw [backtrack_of_sel_some p doms a var (Bool.not_eq_true _ ▸ hcomp)
        hsel]
      obtain ⟨wstar, hwstar⟩ :
          ∃ wstar, lookup F var = some wstar := by
        unfold assignmentComplete at hFcomp
        rw [Bool.and_eq_true, List.all_eq_true] at hFcomp
        have := hFcomp.1 var hspec.1
        cases hl : lookup F var with
        | none => rw [hl] at this; cases this
        | some w => exact ⟨w, rfl⟩
      have hwdom : wstar ∈ doms var := by
        rcases hdom var wstar hwstar with h | h
        · rw [hspec.2] at h; cases h
        · exact h
      have hwmem : wstar ∈ orderDomainValues p doms a var :=
        (mem_orderDomainValues p doms a var wstar).mpr hwdom
      -- the extension hypotheses carried to `insertA a var wstar`
      have hstarext : ∀ v w, lookup (insertA a var wstar) v = some w →
          lookup F v = some w := by
        intro v w hl
        by_cases hv : v = var
        · subst hv
          rw [lookup_insertA_fresh_self a v wstar hspec.2] at hl
          rw [← Option.some_inj.mp hl]
          exact hwstar
        · rw [lookup_insertA_fresh_ne a var v wstar hspec.2 hv] at hl
          exact hext v w hl
      suffices hsuf : ∀ ys, wstar ∈ ys →
          ∀ hvar, tryValues p doms a var hvar ys ≠ none by
        cases htv : tryValues p doms a var
            (selectUnassignedVariable_spec p doms a var hsel)
            (orderDomainValues p doms a var) with
        | none => exact absurd htv (hsuf _ hwmem _)
        | some r => exact ⟨r, rfl⟩
      intro ys
      induction ys with
      | nil => intro h; cases h
      | cons w ws ihy =>
        intro hmem hvar
        rw [tryValues_cons]
        by_cases hconsw : consistentB p (insertA a var w) = true
        · rw [if_pos hconsw]
          cases hbt : backtrack p doms (insertA a var w) with
          | some r =>
            have hr := backtrack_sound p doms (insertA a var w) r hbt
            have hlr : lookup r var = some w := hr.2.1 var w
              (lookup_insertA_fresh_self a var w hspec.2)
            change (if r.isEmpty = true then tryValues p doms a var hvar ws
              else some r) ≠ none
            rw [lookup_some_not_isEmpty hlr]
            simp
          | none =>
            by_cases hws : w = wstar
            · subst hws
              have hlt := unassignedCount_insertA_lt p a var w hspec.1
                hspec.2
              obtain ⟨r, hr⟩ := ih (insertA a var w) (by omega)
                (keysNodup_insertA_fresh w hspec.2 hnd)
                (by
                  intro kv hkv
                  rw [insertA_of_lookup_none a var w hspec.2] at hkv
                  rcases List.mem_append.mp hkv with h | h
                  · exact hkeys kv h
                  · rw [List.mem_singleton] at h
                    rw [h]
                    exact hspec.1)
                F hFcomp hFcons hstarext
                (by
                  intro v w2 hl
                  rcases hdom v w2 hl with h | h
                  · have hvne : v ≠ var := fun he => by
                      rw [he, hspec.2] at h
                      cases h
                    exact Or.inl
                      ((lookup_insertA_fresh_ne a var v w hspec.2
                        hvne).symm ▸ h)
                  · exact Or.inr h)
              rw [hr] at hbt
              cases hbt
            · have hmem2 : wstar ∈ ws := by
                rcases List.mem_cons.mp hmem with h | h
                · exact absurd h.symm hws
                · exact h
              exact ihy hmem2 hvar
        · have hwsne : w ≠ wstar := by
            rintro rfl
            exact hconsw (consistentB_of_extends p (insertA a var w) F
              (keysNodup_insertA_fresh w hspec.2 hnd) hstarext hFcons)
          have hmem2 : wstar ∈ ws := by
            rcases List.mem_cons.mp hmem with h | h
            · exact absurd h.symm hwsne
            · exact h
          rw [if_neg hconsw]
          exact ihy hmem2 hvar

/-! ### Concrete example puzzles (used by witnesses and counterexamples) -/

/-- A length-2 across slot starting at `(0, 0)`. -/
def exAcross : Variable := ⟨0, 0, Direction.across, 2⟩

/-- A length-2 down slot starting at `(0, 1)`, crossing `exAcross` at the
across slot's position 1 / the down slot's position 0. -/
def exDown : Variable := ⟨0, 1, Direction.down, 2⟩

/-- A length-2 down slot starting at `(0, 0)`, crossing `exAcross` at the
position pair `(0, 0)`. -/
def exDown0 : Variable := ⟨0, 0, Direction.down, 2⟩

/-- A single slot and a single fitting word: solvable. -/
def exPuzzle1 : Puzzle := ⟨[exAcross], [['a', 'b']], fun _ _ => none⟩

/-- Two crossing slots whose overlap demands `w[1] = w[0]` of the single
vocabulary word `"ab"`: arc consistency empties a domain. -/
def exPuzzle2 : Puzzle :=
  ⟨[exAcross, exDown], [['a', 'b']],
   fun u v =>
     if u = exAcross ∧ v = exDown then some (1, 0)
     else if u = exDown ∧ v = exAcross then some (0, 1)
     else none⟩

/-- Two crossing slots agreeing at the overlap (`'a' = 'a'`): AC-3 succeeds
and both domains survive. -/
def exPuzzle3 : Puzzle :=
  ⟨[exAcross, exDown0], [['a', 'b']],
   fun u v =>
     if u = exAcross ∧ v = exDown0 then some (0, 0)
     else if u = exDown0 ∧ v = exAcross then some (0, 0)
     else none⟩

/-! ### The claims -/

/-- The domain store `solve` hands to the search on `exPuzzle1`. -/
def exDoms1 : Domains :=
  (ac3 exPuzzle1 (enforceNodeConsistency exPuzzle1 (initDomains exPuzzle1))).2

lemma exDoms1_eq :
    exDoms1 = enforceNodeConsistency exPuzzle1 (initDomains exPuzzle1) := by
  unfold exDoms1 ac3
  rw [show initialArcs exPuzzle1 = [] from rfl, ac3go_nil]

lemma solve_exPuzzle1 : solve exPuzzle1 = some [(exAcross, ['a', 'b'])] := by
  have hstep : backtrack exPuzzle1 exDoms1 [] = some [(exAcross, ['a', 'b'])] := by
    rw [backtrack_of_sel_some exPuzzle1 exDoms1 [] exAcross (by decide)
      (by rw [exDoms1_eq]; decide)]
    have hord : orderDomainValues exPuzzle1 exDoms1 [] exAcross =
        [['a', 'b']] := by
      rw [exDoms1_eq]; decide
    rw [hord, tryValues_cons,
      if_pos (show consistentB exPuzzle1 (insertA [] exAcross ['a', 'b']) =
        true by decide),
      backtrack_of_complete exPuzzle1 exDoms1 (insertA [] exAcross
        ['a', 'b']) (by decide)]
    rfl
  unfold solve
  exact hstep

/-- **C2**: every assignment returned by `solve` is complete and globally
consistent — with a well-formed overlap table, no two variables hold the same
word, every assigned word has its variable's length, and every two distinct
assigned crossing variables agree at their overlap position pair. -/
theorem claim_C2 (p : Puzzle) (hWF : p.WF) (a : Assign)
    (h : solve p = some a) :
    assignmentComplete p a = true ∧
      (∀ v w, lookup a v = some w → w.length = v.length) ∧
      (∀ v1 w1 v2 w2, lookup a v1 = some w1 → lookup a v2 = some w2 →
        v1 ≠ v2 → w1 ≠ w2) ∧
      (∀ v1 v2 w1 w2 ov, v1 ∈ p.vars → v2 ∈ p.vars → v1 ≠ v2 →
        lookup a v1 = some w1 → lookup a v2 = some w2 →
        p.overlaps v1 v2 = some ov → w1.get? ov.1 = w2.get? ov.2) := by
  unfold solve at h
  obtain ⟨hcomp, -, -, hconsf, -⟩ := backtrack_sound p _ [] a h
  have hcons := hconsf (consistentB_empty p)
  obtain ⟨hlen, hdist, hover⟩ := consistentB_true_spec p a hcons
  refine ⟨hcomp, hlen, hdist, ?_⟩
  intro v1 v2 w1 w2 ov hv1 hv2 hne h1 h2 hov
  have hrev := WF.overlaps_symm hWF hv1 hv2 hov
  have hnb : v2 ∈ p.neighbors v1 :=
    (mem_neighbors p v1 v2).mpr ⟨hv2, hne.symm, by rw [hrev]; rfl⟩
  exact hover v1 w1 h1 v2 hnb w2 h2 ov hov

theorem claim_C2_witness :
    exPuzzle1.WF ∧ solve exPuzzle1 = some [(exAcross, ['a', 'b'])] ∧
      (assignmentComplete exPuzzle1 [(exAcross, ['a', 'b'])] = true ∧
        (∀ v w, lookup [(exAcross, ['a', 'b'])] v = some w →
          w.length = v.length) ∧
        (∀ v1 w1 v2 w2, lookup [(exAcross, ['a', 'b'])] v1 = some w1 →
          lookup [(exAcross, ['a', 'b'])] v2 = some w2 → v1 ≠ v2 →
          w1 ≠ w2) ∧
        (∀ v1 v2 w1 w2 ov, v1 ∈ exPuzzle1.vars → v2 ∈ exPuzzle1.vars →
          v1 ≠ v2 → lookup [(exAcross, ['a', 'b'])] v1 = some w1 →
          lookup [(exAcross, ['a', 'b'])] v2 = some w2 →
          exPuzzle1.overlaps v1 v2 = some ov →
          w1.get? ov.1 = w2.get? ov.2)) :=
  ⟨by decide, solve_exPuzzle1,
    claim_C2 exPuzzle1 (by decide) [(exAcross, ['a', 'b'])] solve_exPuzzle1⟩

/-- **C9**: the backtracking search never mutates the domain store: in the
state-threaded translation (covering `select_unassigned_variable`,
`order_domain_values` and `consistent`, none of which assign to
`self.domains`), every variable's domain after the call equals its value
before, and the result is exactly that of the plain search — only the
assignment changes. -/
theorem claim_C9 (p : Puzzle) (doms : Domains) (a : Assign) :
    (∀ v, (backtrackST p doms a).2.1 v = doms v) ∧
      (backtrackST p doms a).1 = backtrack p doms a := by
  rw [backtrackST_spec p doms a]
  exact ⟨fun v => rfl, rfl⟩

theorem claim_C9_witness :
    (∀ v, (backtrackST exPuzzle1 exDoms1 []).2.1 v = exDoms1 v) ∧
      (backtrackST exPuzzle1 exDoms1 []).1 = backtrack exPuzzle1 exDoms1 [] :=
  claim_C9 exPuzzle1 exDoms1 []

/-- **C10**: `backtrack(A)` does not modify the assignment `A` it receives —
the state-threaded argument object comes back unchanged, every extension
being made on a copy — and whenever it returns an assignment, that
assignment binds every variable bound by `A` to the same word. -/
theorem claim_C10 (p : Puzzle) (doms : Domains) (a : Assign) :
    (backtrackST p doms a).2.2 = a ∧
      ∀ r, backtrack p doms a = some r →
        ∀ v w, lookup a v = some w → lookup r v = some w := by
  refine ⟨by rw [backtrackST_spec p doms a], ?_⟩
  intro r hr
  exact (backtrack_sound p doms a r hr).2.1

theorem claim_C10_witness :
    ((backtrackST exPuzzle1 exDoms1 [(exAcross, ['a', 'b'])]).2.2 =
        [(exAcross, ['a', 'b'])] ∧
      ∀ r, backtrack exPuzzle1 exDoms1 [(exAcross, ['a', 'b'])] = some r →
        ∀ v w, lookup [(exAcross, ['a', 'b'])] v = some w →
          lookup r v = some w) :=
  claim_C10 exPuzzle1 exDoms1 [(exAcross, ['a', 'b'])]

/-- **C4**: the domain store is initialized to the full vocabulary for every
variable, and after `enforce_node_consistency` runs, every word remaining in
a puzzle variable's domain has exactly the variable's required length. -/
theorem claim_C4 (p : Puzzle) (v : Variable) (hv : v ∈ p.vars) :
    initDomains p v = p.words ∧
      ∀ w ∈ enforceNodeConsistency p (initDomains p) v,
        w.length = v.length := by
  refine ⟨rfl, ?_⟩
  intro w hw
  unfold enforceNodeConsistency at hw
  rw [if_pos hv] at hw
  have h2 := List.of_mem_filter hw
  simp only [decide_eq_true_eq] at h2
  exact h2.symm

theorem claim_C4_witness :
    exAcross ∈ exPuzzle1.vars ∧
      (initDomains exPuzzle1 exAcross = exPuzzle1.words ∧
        ∀ w ∈ enforceNodeConsistency exPuzzle1 (initDomains exPuzzle1)
          exAcross, w.length = exAcross.length) :=
  ⟨by decide, claim_C4 exPuzzle1 exAcross (by decide)⟩

/-- **C6**: for a pair with an overlap, `revise(x, y)` keeps in `Domain[x]`
exactly the words with a supporting word in `Domain[y]` (removing exactly the
unsupported ones), leaves every other domain unchanged, and returns `true`
iff at least one word was removed. -/
theorem claim_C6 (p : Puzzle) (doms : Domains) (x y : Variable)
    (ov : Nat × Nat) (hov : p.overlaps x y = some ov) :
    (∀ w, w ∈ (reviseDoms p doms x y).1 x ↔
        w ∈ doms x ∧ ∃ w2 ∈ doms y, w.get? ov.1 = w2.get? ov.2) ∧
    (∀ v, v ≠ x → (reviseDoms p doms x y).1 v = doms v) ∧
    ((reviseDoms p doms x y).2 = true ↔
        ∃ w ∈ doms x, ∀ w2 ∈ doms y, ¬ w.get? ov.1 = w2.get? ov.2) := by
  refine ⟨?_, ?_, ?_⟩
  · intro w
    simp only [reviseDoms, hov, if_pos trivial, List.mem_filter, hasSupport,
      List.any_eq_true, decide_eq_true_eq]
  · intro v hv
    simp [reviseDoms, hov, hv]
  · simp only [reviseDoms, hov, Bool.not_eq_true',
      List.isEmpty_eq_false_iff_exists_mem, List.mem_filter, hasSupport,
      Bool.not_eq_true, List.any_eq_false, decide_eq_true_eq]

theorem claim_C6_witness :
    exPuzzle2.overlaps exAcross exDown = some (1, 0) ∧
      ((∀ w, w ∈ (reviseDoms exPuzzle2 (initDomains exPuzzle2) exAcross
            exDown).1 exAcross ↔
          w ∈ initDomains exPuzzle2 exAcross ∧
            ∃ w2 ∈ initDomains exPuzzle2 exDown,
              w.get? 1 = w2.get? 0) ∧
        (∀ v, v ≠ exAcross →
          (reviseDoms exPuzzle2 (initDomains exPuzzle2) exAcross
            exDown).1 v = initDomains exPuzzle2 v) ∧
        ((reviseDoms exPuzzle2 (initDomains exPuzzle2) exAcross
            exDown).2 = true ↔
          ∃ w ∈ initDomains exPuzzle2 exAcross,
            ∀ w2 ∈ initDomains exPuzzle2 exDown,
              ¬ w.get? 1 = w2.get? 0)) :=
  ⟨by decide, claim_C6 exPuzzle2 (initDomains exPuzzle2) exAcross exDown
    (1, 0) (by decide)⟩

/-- **C8**: domains only ever shrink — node consistency, a single revision,
and a whole AC-3 worklist run each leave every variable's domain a subset of
(and no longer than) its previous value. -/
theorem claim_C8 (p : Puzzle) (doms : Domains) (v : Variable) :
    (enforceNodeConsistency p doms v ⊆ doms v ∧
      (enforceNodeConsistency p doms v).length ≤ (doms v).length) ∧
    (∀ x y, (reviseDoms p doms x y).1 v ⊆ doms v ∧
      ((reviseDoms p doms x y).1 v).length ≤ (doms v).length) ∧
    (∀ queue, (ac3go p doms queue).2 v ⊆ doms v ∧
      ((ac3go p doms queue).2 v).length ≤ (doms v).length) := by
  refine ⟨⟨?_, ?_⟩, fun x y => ⟨reviseDoms_fst_subset p doms x y v,
    reviseDoms_length_le p doms x y v⟩, fun queue =>
    ⟨ac3go_subset p doms queue v, ac3go_length_le p doms queue v⟩⟩
  · unfold enforceNodeConsistency
    by_cases hv : v ∈ p.vars
    · rw [if_pos hv]
      exact fun w hw => List.mem_of_mem_filter hw
    · rw [if_neg hv]
      exact fun w hw => hw
  · unfold enforceNodeConsistency
    by_cases hv : v ∈ p.vars
    · rw [if_pos hv]
      exact List.length_filter_le _ _
    · rw [if_neg hv]

theorem claim_C8_witness :
    (enforceNodeConsistency exPuzzle2 (initDomains exPuzzle2) exAcross ⊆
        initDomains exPuzzle2 exAcross ∧
      (enforceNodeConsistency exPuzzle2 (initDomains exPuzzle2)
        exAcross).length ≤ (initDomains exPuzzle2 exAcross).length) ∧
    (∀ x y, (reviseDoms exPuzzle2 (initDomains exPuzzle2) x y).1 exAcross ⊆
        initDomains exPuzzle2 exAcross ∧
      ((reviseDoms exPuzzle2 (initDomains exPuzzle2) x y).1
        exAcross).length ≤ (initDomains exPuzzle2 exAcross).length) ∧
    (∀ queue, (ac3go exPuzzle2 (initDomains exPuzzle2) queue).2 exAcross ⊆
        initDomains exPuzzle2 exAcross ∧
      ((ac3go exPuzzle2 (initDomains exPuzzle2) queue).2
        exAcross).length ≤ (initDomains exPuzzle2 exAcross).length) :=
  claim_C8 exPuzzle2 (initDomains exPuzzle2) exAcross

lemma ac3_exPuzzle3 :
    ac3 exPuzzle3 (initDomains exPuzzle3) =
      (true, initDomains exPuzzle3) := by
  unfold ac3
  exact ac3go_noop exPuzzle3 (initDomains exPuzzle3)
    (initialArcs exPuzzle3) (by decide)

/-- **C5**: whenever `ac3` succeeds on the initial arc set, every arc
`(x, y)` with `y` a neighbor of `x` is arc-consistent in the resulting
domain store: each surviving word of `Domain[x]` has a supporting word in
`Domain[y]` agreeing at the overlap position pair. -/
theorem claim_C5 (p : Puzzle) (hWF : p.WF) (doms : Domains)
    (h : (ac3 p doms).1 = true) :
    ∀ x ∈ p.vars, ∀ y ∈ p.neighbors x, ∀ ov, p.overlaps x y = some ov →
      ∀ w ∈ (ac3 p doms).2 x, ∃ w2 ∈ (ac3 p doms).2 y,
        w.get? ov.1 = w2.get? ov.2 := by
  intro x hx y hy
  exact ac3_success_arcConsistent p hWF doms h x hx y hy

theorem claim_C5_witness :
    exPuzzle3.WF ∧
      (ac3 exPuzzle3 (initDomains exPuzzle3)).1 = true ∧
      (∀ x ∈ exPuzzle3.vars, ∀ y ∈ exPuzzle3.neighbors x, ∀ ov,
        exPuzzle3.overlaps x y = some ov →
        ∀ w ∈ (ac3 exPuzzle3 (initDomains exPuzzle3)).2 x,
          ∃ w2 ∈ (ac3 exPuzzle3 (initDomains exPuzzle3)).2 y,
            w.get? ov.1 = w2.get? ov.2) :=
  ⟨by decide, by rw [ac3_exPuzzle3],
    claim_C5 exPuzzle3 (by decide) (initDomains exPuzzle3)
      (by rw [ac3_exPuzzle3])⟩

/-- **C7**: a second `ac3` run immediately after a successful one, on the
same domain store, is a no-op: the store is at the AC-3 fixed point, every
`revise` performed during the second run (all on initial arcs, since the
queue never grows) returns `false`, and the domains are unchanged. -/
theorem claim_C7 (p : Puzzle) (hWF : p.WF) (doms : Domains)
    (h : (ac3 p doms).1 = true) :
    ac3 p (ac3 p doms).2 = (true, (ac3 p doms).2) ∧
      ∀ x ∈ p.vars, ∀ y ∈ p.neighbors x,
        (reviseDoms p (ac3 p doms).2 x y).2 = false := by
  have hcons := ac3_success_arcConsistent p hWF doms h
  have hrev : ∀ x ∈ p.vars, ∀ y ∈ p.neighbors x,
      (reviseDoms p (ac3 p doms).2 x y).2 = false := fun x hx y hy =>
    revise_false_of_arcConsistent p _ x y (hcons x hx y hy)
  refine ⟨?_, hrev⟩
  conv => lhs; rw [ac3]
  apply ac3go_noop
  intro arc harc
  obtain ⟨h1, h2⟩ := (initialArcs_mem p arc).mp harc
  exact hrev arc.1 h1 arc.2 h2

theorem claim_C7_witness :
    exPuzzle3.WF ∧
      (ac3 exPuzzle3 (initDomains exPuzzle3)).1 = true ∧
      (ac3 exPuzzle3 (ac3 exPuzzle3 (initDomains exPuzzle3)).2 =
          (true, (ac3 exPuzzle3 (initDomains exPuzzle3)).2) ∧
        ∀ x ∈ exPuzzle3.vars, ∀ y ∈ exPuzzle3.neighbors x,
          (reviseDoms exPuzzle3 (ac3 exPuzzle3 (initDomains exPuzzle3)).2
            x y).2 = false) :=
  ⟨by decide, by rw [ac3_exPuzzle3],
    claim_C7 exPuzzle3 (by decide) (initDomains exPuzzle3)
      (by rw [ac3_exPuzzle3])⟩

/-- **C3** (amended): for every puzzle, domain store, and well-formed
consistent partial assignment `a` (distinct keys among the puzzle's
variables, accepted by the global checker): if a complete consistent
assignment extending `a` exists using only domain words for the new
bindings, backtracking search returns one such assignment; if no such
extension exists, it returns the failure value. -/
theorem claim_C3 (p : Puzzle) (doms : Domains) (a : Assign)
    (hnd : KeysNodup a) (hkeys : ∀ kv ∈ a, kv.1 ∈ p.vars)
    (hcons : consistentB p a = true) :
    ((∃ F, GoodExtension p doms a F) →
      ∃ r, backtrack p doms a = some r ∧ GoodExtension p doms a r) ∧
    ((¬ ∃ F, GoodExtension p doms a F) → backtrack p doms a = none) := by
  constructor
  · rintro ⟨F, hFc, hFcons, hFext, hFdom⟩
    obtain ⟨r, hr⟩ := backtrack_some_of_goodExtension p doms
      (unassignedCount p a) a le_rfl hnd hkeys F hFc hFcons hFext hFdom
    obtain ⟨hcomp, hext, -, hconsp, hdom⟩ := backtrack_sound p doms a r hr
    exact ⟨r, hr, hcomp, hconsp hcons, hext, hdom⟩
  · intro hnone
    cases hbt : backtrack p doms a with
    | none => rfl
    | some r =>
      obtain ⟨hcomp, hext, -, hconsp, hdom⟩ := backtrack_sound p doms a r hbt
      exact absurd ⟨r, hcomp, hconsp hcons, hext, hdom⟩ hnone

theorem claim_C3_witness :
    KeysNodup ([] : Assign) ∧ (∀ kv ∈ ([] : Assign), kv.1 ∈ exPuzzle1.vars) ∧
      consistentB exPuzzle1 [] = true ∧
      (((∃ F, GoodExtension exPuzzle1 (initDomains exPuzzle1) [] F) →
        ∃ r, backtrack exPuzzle1 (initDomains exPuzzle1) [] = some r ∧
          GoodExtension exPuzzle1 (initDomains exPuzzle1) [] r) ∧
      ((¬ ∃ F, GoodExtension exPuzzle1 (initDomains exPuzzle1) [] F) →
        backtrack exPuzzle1 (initDomains exPuzzle1) [] = none)) :=
  ⟨List.nodup_nil, by decide, rfl,
    claim_C3 exPuzzle1 (initDomains exPuzzle1) [] List.nodup_nil (by decide)
      rfl⟩

/-- **C3** as literally stated — quantified over *every* partial assignment,
with the existing complete assignment not required to extend it — is false:
on the one-slot puzzle, the complete-but-inconsistent assignment
`{exAcross ↦ "c"}` is returned unchanged by `backtrack` even though the
complete *consistent* assignment `{exAcross ↦ "ab"}` exists within the
domains, so the search does not return "one such assignment". -/
theorem claim_C3_counterexample :
    ¬ ((∃ F, assignmentComplete exPuzzle1 F = true ∧
          consistentB exPuzzle1 F = true ∧
          (∀ v w, lookup F v = some w → w ∈ initDomains exPuzzle1 v)) →
        ∃ r, backtrack exPuzzle1 (initDomains exPuzzle1)
            [(exAcross, ['c'])] = some r ∧
          assignmentComplete exPuzzle1 r = true ∧
          consistentB exPuzzle1 r = true ∧
          (∀ v w, lookup r v = some w → w ∈ initDomains exPuzzle1 v)) := by
  intro hclaim
  have hF : ∃ F, assignmentComplete exPuzzle1 F = true ∧
      consistentB exPuzzle1 F = true ∧
      (∀ v w, lookup F v = some w → w ∈ initDomains exPuzzle1 v) := by
    refine ⟨[(exAcross, ['a', 'b'])], by decide, by decide, ?_⟩
    intro v w hvw
    unfold lookup at hvw
    by_cases hv : v = exAcross
    · rw [if_pos hv] at hvw
      rw [← Option.some_inj.mp hvw]
      exact List.mem_cons_self _ _
    · rw [if_neg hv] at hvw
      cases hvw
  obtain ⟨r, hr, -, hrcons, -⟩ := hclaim hF
  rw [backtrack_of_complete exPuzzle1 (initDomains exPuzzle1)
    [(exAcross, ['c'])] (by decide)] at hr
  rw [← Option.some_inj.mp hr] at hrcons
  exact absurd hrcons (by decide)

/-- **C1** (amended): when the `ac3` run inside `solve` returns failure
(some domain emptied during propagation), `solve` reports no solution — but
the source still invokes the backtracking search unconditionally (the
`solveTraced` flag); the search then immediately returns the no-solution
value because the MRV heuristic selects the emptied variable first. -/
theorem claim_C1 (p : Puzzle)
    (h : (ac3 p (enforceNodeConsistency p (initDomains p))).1 = false) :
    solve p = none ∧ (solveTraced p).2 = true := by
  refine ⟨?_, rfl⟩
  unfold ac3 at h
  obtain ⟨v, hv, hempty⟩ := ac3go_false_empty_domain p
    (enforceNodeConsistency p (initDomains p)) (initialArcs p)
    (fun arc harc => ((initialArcs_mem p arc).mp harc).1) h
  unfold solve ac3
  exact backtrack_empty_assignment_none p _ v hv hempty

theorem claim_C1_witness :
    (ac3 exPuzzle2
        (enforceNodeConsistency exPuzzle2 (initDomains exPuzzle2))).1 =
      false ∧
      (solve exPuzzle2 = none ∧ (solveTraced exPuzzle2).2 = true) :=
  ⟨by simp [ac3, ac3go, initialArcs, exPuzzle2, Puzzle.neighbors, exAcross,
      exDown, enforceNodeConsistency, initDomains, reviseDoms, hasSupport],
   claim_C1 exPuzzle2
    (by simp [ac3, ac3go, initialArcs, exPuzzle2, Puzzle.neighbors, exAcross,
      exDown, enforceNodeConsistency, initDomains, reviseDoms, hasSupport])⟩

/-- **C1** as literally stated is false on `exPuzzle2`: its `ac3` run does
return failure, but `solve` does not skip the backtracking search — the
search-invoked flag of `solveTraced` is `true`, never `false`. -/
theorem claim_C1_counterexample :
    ¬ ((ac3 exPuzzle2
          (enforceNodeConsistency exPuzzle2 (initDomains exPuzzle2))).1 =
        false →
        (solveTraced exPuzzle2).1 = none ∧
          (solveTraced exPuzzle2).2 = false) := by
  intro hclaim
  have hfail : (ac3 exPuzzle2
      (enforceNodeConsistency exPuzzle2 (initDomains exPuzzle2))).1 =
      false := by
    simp [ac3, ac3go, initialArcs, exPuzzle2, Puzzle.neighbors, exAcross,
      exDown, enforceNodeConsistency, initDomains, reviseDoms, hasSupport]
  have := (hclaim hfail).2
  simp [solveTraced] at this

end CrosswordCSP
